import Mathlib

/-!
Verification of the chunked text-buffer core of `lkjsxceditor` (src/lkjsxceditor.c).

The buffer is a doubly-linked list of fixed-capacity chunks allocated from a
static pool.  We embed it shallowly:

* a `struct bufchunk` is modelled by the list of its used bytes
  (`data[0..size)`); `size` is the list's length, and the unused tail of the
  512-byte array (never read by the code) is not represented;
* the linked list `begin .. rbegin` is a `List Chunk`; a chunk pointer is
  modelled by the chunk's index in that list (`NULL` / dangling pointers have
  no index; the places where the C code could only reach them through
  undefined behaviour are noted in comments and excluded by well-formedness
  hypotheses);
* the pool free list is modelled by the number `poolFree` of chunks left in
  it; `bufchunk_alloc` succeeds exactly when it is non-zero;
* bytes are `Nat` (values 0..255); `memmove`/`memcpy` shifts become
  `List.take`/`List.drop`/append;
* each C function returning `enum RESULT` and mutating `struct bufclient*`
  becomes a function `Bufclient → RES × Bufclient`.
-/

set_option maxRecDepth 100000

namespace Lkjsxceditor

/-- BUFCHUNK_SIZE from the source: byte capacity of each text chunk. -/
def BUFCHUNK_SIZE : Nat := 512

/-- BUFCHUNK_COUNT from the source: number of chunks in the static pool. -/
def BUFCHUNK_COUNT : Nat := 32768

/-- TAB_STOP from the source. -/
def TAB_STOP : Nat := 8

/-- The source's `enum RESULT` (`RESULT_OK` / `RESULT_ERR`). -/
inductive RES where
  | ok
  | err
deriving DecidableEq, Repr

/-- The four arrow keys accepted by `bufclient_move_cursor_relative`. -/
inductive Key where
  | left
  | right
  | up
  | down
deriving DecidableEq, Repr

/-- A `struct bufchunk`, modelled by the list of its used bytes. -/
abbrev Chunk := List Nat

/-- The `struct bufclient` fields that the buffer-core functions touch.
`chunks` is the live chunk list from `begin` to `rbegin`; `cursorIdx` is the
index of `cursor_chunk` in that list; `rowoffChunk` is `rowoff_chunk`
(`none` = `NULL`).  The `filename` field and the display offset `coloff` are
never read or written by the functions verified here and are omitted. -/
structure Bufclient where
  chunks : List Chunk
  cursorIdx : Nat
  cursorRel : Nat
  cursorAbs : Nat
  cursorY : Nat
  cursorX : Nat
  goalX : Nat
  size : Nat
  dirty : Bool
  rowoff : Nat
  rowoffChunk : Option Nat
  rowoffRel : Nat
  rowoffAbs : Nat
  poolFree : Nat
deriving DecidableEq, Repr

/-- The chunk at index `i` of the live list (`[]` when out of range). -/
def chunkAt (s : Bufclient) (i : Nat) : Chunk := (s.chunks[i]?).getD []

/-- Sum of the sizes of the chunks strictly before index `i`. -/
def prefixLen (l : List Chunk) (i : Nat) : Nat := ((l.take i).map List.length).sum

/-- Sum of the sizes of all chunks. -/
def totalLen (l : List Chunk) : Nat := (l.map List.length).sum

/-- Insertion of one element at index `i` (the `memmove`-right-and-write
pattern of the source; appends at the end when `i` = length). -/
def linsert {α : Type} (l : List α) (i : Nat) (a : α) : List α :=
  l.take i ++ a :: l.drop i

/-- Removal of the element at index `i` (the `memmove`-left pattern). -/
def lerase {α : Type} (l : List α) (i : Nat) : List α :=
  l.take i ++ l.drop (i + 1)

/-- The buffer's byte sequence: concatenation of chunk contents in list
order (this is also the byte-for-byte serialization the editor saves). -/
def bufBytes (s : Bufclient) : List Nat := s.chunks.flatten

/-- Pointer identity under removal of the chunk at index `erased`: a pointer
to a chunk after it now has index one less.  (A pointer to the erased chunk
itself dangles in C; it keeps its index here — such states are excluded by
the hypotheses of every theorem below.) -/
def adjustIdx (i erased : Nat) : Nat := if erased < i then i - 1 else i

/-- `adjustIdx` lifted to a nullable chunk pointer. -/
def adjustPtr (p : Option Nat) (erased : Nat) : Option Nat :=
  p.map (fun i => adjustIdx i erased)

/-! ## `bufclient_find_pos` (src lines 192-219) -/

/-- The linear scan of `bufclient_find_pos`: walk the chunk list keeping the
absolute index `base` at the start of the current chunk. -/
def findPosLoop (target : Nat) : List Chunk → Nat → Nat → Option (Nat × Nat)
  | [], _, _ => none
  | c :: rest, idx, base =>
    if base ≤ target ∧ target < base + c.length then some (idx, target - base)
    else findPosLoop target rest (idx + 1) (base + c.length)

/-- `bufclient_find_pos`: absolute index to (chunk, relative index).
Fails (`none`, the C `RESULT_ERR` with outputs unwritten) when the target is
negative or beyond `size`; special-cases `target = size` to the end of
`rbegin`. -/
def bufclient_find_pos (buf : Bufclient) (target : Int) : Option (Nat × Nat) :=
  if target < 0 ∨ target > (buf.size : Int) then none
  else if target = (buf.size : Int) then
    some (buf.chunks.length - 1, (buf.chunks.getLast?.getD []).length)
  else findPosLoop target.toNat buf.chunks 0 0

/-! ## `bufclient_find_line_start` (src lines 222-279) -/

/-- Inner scan of one chunk's bytes for the `target`-th newline; counts
newlines into `y` and returns the relative index of the hit, if any, and the
updated newline count. -/
def flsInner (ty : Nat) : List Nat → Nat → Nat → Option Nat × Nat
  | [], _, y => (none, y)
  | b :: rest, rel, y =>
    if b = 10 then
      if y + 1 = ty then (some rel, y + 1)
      else flsInner ty rest (rel + 1) (y + 1)
    else flsInner ty rest (rel + 1) y

/-- Outer chunk walk of `bufclient_find_line_start`.  On a hit at relative
index `rel` of the chunk at `idx`, the start of the line is `rel + 1` in the
same chunk, or the start of the next chunk, or the end of the buffer, exactly
as in the source.  When the scan runs out with fewer newlines than requested
it reports the end of the buffer and `RESULT_ERR`. -/
def flsOuter (buf : Bufclient) (ty : Nat) : List Chunk → Nat → Nat → Nat → RES × Nat × Nat × Nat
  | [], _, _, y =>
    if y < ty then
      (RES.err, buf.chunks.length - 1, (buf.chunks.getLast?.getD []).length, buf.size)
    else (RES.err, 0, 0, 0)
  | c :: rest, idx, base, y =>
    match flsInner ty c 0 y with
    | (some rel, _) =>
      if rel + 1 < c.length then (RES.ok, idx, rel + 1, base + rel + 1)
      else if rest ≠ [] then (RES.ok, idx + 1, 0, base + rel + 1)
      else (RES.ok, idx, c.length, base + rel + 1)
    | (none, y2) => flsOuter buf ty rest (idx + 1) (base + c.length) y2

/-- `bufclient_find_line_start`: (result, chunk index, relative index,
absolute index of the start of line `ty`).  Line 0 starts at the beginning. -/
def bufclient_find_line_start (buf : Bufclient) (ty : Nat) : RES × Nat × Nat × Nat :=
  if ty = 0 then (RES.ok, 0, 0, 0)
  else flsOuter buf ty buf.chunks 0 0 0

/-! ## `bufclient_update_cursor_coords` (src lines 281-410) -/

/-- Inner byte scan of `bufclient_update_cursor_coords` over one chunk's
remaining bytes: advances `(rel, abs, y, x)` until the chunk or the target is
exhausted.  In this function the source gives a control byte visual width 1
(`current_x++`, line 339), the same as a printable byte, so the two branches
collapse; only `\n` and `\t` are special. -/
def uccInner (t : Nat) : List Nat → Nat → Nat → Nat → Nat → Nat × Nat × Nat × Nat
  | [], rel, abs, y, x => (rel, abs, y, x)
  | b :: rest, rel, abs, y, x =>
    if abs < t then
      if b = 10 then uccInner t rest (rel + 1) (abs + 1) (y + 1) 0
      else if b = 9 then uccInner t rest (rel + 1) (abs + 1) y (x + (TAB_STOP - x % TAB_STOP))
      else uccInner t rest (rel + 1) (abs + 1) y (x + 1)
    else (rel, abs, y, x)

/-- Outer chunk walk of the coordinate scan.  Returns `none` when the list is
exhausted with `abs` still short of the target (the source's final
`current_abs_i != target_abs_i` check, `RESULT_ERR`).  The case where the
walk starts with no chunk at all but `abs = t` would dereference `NULL` at
source line 393; it cannot arise from a non-empty chunk list. -/
def uccOuter (t : Nat) : List Chunk → Nat → Nat → Nat → Nat → Nat → Option (Nat × Nat × Nat × Nat)
  | [], idx, rel, abs, y, x => if abs = t then some (idx, rel, y, x) else none
  | c :: rest, idx, rel, abs, y, x =>
    if abs < t then
      match uccInner t (c.drop rel) rel abs y x with
      | (rel2, abs2, y2, x2) =>
        if abs2 < t then uccOuter t rest (idx + 1) 0 abs2 y2 x2
        else some (idx, rel2, y2, x2)
    else some (idx, rel, y, x)

/-- `bufclient_update_cursor_coords`: recompute `(cursor_abs_y, cursor_abs_x)`
and re-derive `(cursor_chunk, cursor_rel_i)` for the current `cursor_abs_i`,
scanning from the `rowoff` cache point when the cache is present and at or
before the target, else from the head.  On the error paths the buffer is
returned unchanged (the C code writes nothing before returning). -/
def bufclient_update_cursor_coords (buf : Bufclient) : RES × Bufclient :=
  if buf.cursorAbs > buf.size then (RES.err, buf)
  else
    let t := buf.cursorAbs
    let st : Nat × Nat × Nat × Nat :=
      match buf.rowoffChunk with
      | some i => if buf.rowoffAbs ≤ t then (i, buf.rowoffRel, buf.rowoffAbs, buf.rowoff)
                  else (0, 0, 0, 0)
      | none => (0, 0, 0, 0)
    match uccOuter t (buf.chunks.drop st.1) st.1 st.2.1 st.2.2.1 st.2.2.2 0 with
    | none => (RES.err, buf)
    | some (idx, rel, y, x) =>
      let norm : Nat × Nat :=
        match buf.chunks.drop idx with
        | [] => (idx, rel)
        | c :: rest =>
          if rel = c.length ∧ rest ≠ [] ∧ t < buf.size then (idx + 1, 0) else (idx, rel)
      let fin : Nat × Nat := if buf.size = 0 then (0, 0) else norm
      (RES.ok, { buf with cursorY := y, cursorX := x, cursorIdx := fin.1, cursorRel := fin.2 })

/-! ## `calculate_visual_x` (src lines 412-459) -/

/-- Inner byte scan of `calculate_visual_x`: a newline returns the
accumulated column immediately (first component `true`); a tab advances to
the next multiple of `TAB_STOP`; any other control byte (`iscntrl`: values
below 32 or 127) adds 2; other bytes add 1. -/
def cvxInner (t : Nat) : List Nat → Nat → Nat → Bool × Nat × Nat
  | [], abs, x => (false, abs, x)
  | b :: rest, abs, x =>
    if abs < t then
      if b = 10 then (true, abs, x)
      else if b = 9 then cvxInner t rest (abs + 1) (x + (TAB_STOP - x % TAB_STOP))
      else if b < 32 ∨ b = 127 then cvxInner t rest (abs + 1) (x + 2)
      else cvxInner t rest (abs + 1) (x + 1)
    else (false, abs, x)

/-- Outer chunk walk of `calculate_visual_x`. -/
def cvxOuter (t : Nat) : List Chunk → Nat → Nat → Nat
  | [], _, x => x
  | c :: rest, abs, x =>
    match cvxInner t c abs x with
    | (true, _, x2) => x2
    | (false, abs2, x2) => if abs2 < t then cvxOuter t rest abs2 x2 else x2

/-- `calculate_visual_x`: visual column of absolute index `t` on line `ty`,
scanning from the line start found by `bufclient_find_line_start`; 0 on a
line-lookup failure or when `t` is exactly the line start. -/
def calculate_visual_x (buf : Bufclient) (ty : Nat) (t : Nat) : Nat :=
  match bufclient_find_line_start buf ty with
  | (RES.ok, li, lr, la) =>
    if t = la then 0
    else
      match buf.chunks.drop li with
      | [] => 0
      | c :: rest =>
        match cvxInner t (c.drop lr) la 0 with
        | (true, _, x2) => x2
        | (false, abs2, x2) => if abs2 < t then cvxOuter t rest abs2 x2 else x2
  | (RES.err, _, _, _) => 0

/-! ## `bufclient_insert_char` (src lines 507-620) -/

/-- The closing bookkeeping of `bufclient_insert_char` (lines 598-617):
`size`/`cursor_abs_i` increments, `dirty`, the simple coordinate update (a
newline bumps the line and resets the column; any other byte naively adds 1
to the column — the full recompute call is commented out in the source), and
the goal-column update. -/
def finishInsert (buf : Bufclient) (c : Nat) : Bufclient :=
  let b1 := { buf with size := buf.size + 1, cursorAbs := buf.cursorAbs + 1, dirty := true }
  let b2 := if c = 10 then { b1 with cursorY := b1.cursorY + 1, cursorX := 0 }
            else { b1 with cursorX := b1.cursorX + 1 }
  { b2 with goalX := b2.cursorX }

/-- The effective insertion point of `bufclient_insert_char` (lines 509-517):
a cursor exactly at the end of a chunk with a successor is normalized to the
start of that successor. -/
def insertTarget (buf : Bufclient) : Nat × Nat :=
  match buf.chunks[buf.cursorIdx]? with
  | some ch =>
    if buf.cursorRel = ch.length ∧ buf.cursorIdx + 1 < buf.chunks.length
    then (buf.cursorIdx + 1, 0) else (buf.cursorIdx, buf.cursorRel)
  | none => (buf.cursorIdx, buf.cursorRel)

/-- `bufclient_insert_char`.  Three successful shapes: in-place insertion
when the target chunk has room; a fresh one-byte chunk after the target when
the cursor sits exactly at the end of a full chunk; a split otherwise.
Failure when the target chunk is full and the pool is exhausted — note the
`rowoff` cache invalidation (lines 531-534, a strictly-before test) has
already happened at that point.  A buffer with no live chunk at the
insertion point fails before touching anything (lines 519-527; in C that is
the `NULL`-cursor fallback or, for a dangling pointer, undefined behaviour). -/
def bufclient_insert_char (buf : Bufclient) (c : Nat) : RES × Bufclient :=
  let p := insertTarget buf
  match buf.chunks[p.1]? with
  | none => (RES.err, buf)
  | some ch =>
    let buf1 := if buf.rowoffChunk.isSome ∧ buf.cursorAbs < buf.rowoffAbs
                then { buf with rowoffChunk := none } else buf
    if ch.length < BUFCHUNK_SIZE then
      (RES.ok, finishInsert
        { buf1 with
          chunks := buf1.chunks.set p.1 (linsert ch p.2 c),
          cursorIdx := p.1, cursorRel := p.2 + 1 } c)
    else if buf1.poolFree = 0 then (RES.err, buf1)
    else if p.2 = BUFCHUNK_SIZE then
      (RES.ok, finishInsert
        { buf1 with
          chunks := linsert buf1.chunks (p.1 + 1) [c],
          cursorIdx := p.1 + 1, cursorRel := 1,
          poolFree := buf1.poolFree - 1 } c)
    else
      (RES.ok, finishInsert
        { buf1 with
          chunks := linsert (buf1.chunks.set p.1 (ch.take p.2 ++ [c])) (p.1 + 1) (ch.drop p.2),
          cursorIdx := p.1, cursorRel := p.2 + 1,
          poolFree := buf1.poolFree - 1 } c)

/-! ## `bufclient_delete_char` (src lines 622-741) -/

/-- The merge-forward pass of `bufclient_delete_char` (src lines 700-738):
if the chunk at `m` and its successor fit in one chunk, append the
successor's bytes, unlink and free it, fixing the cursor and the `rowoff`
cache when they pointed into the freed chunk. -/
def deleteMerge (buf : Bufclient) (m : Nat) : Bufclient :=
  match buf.chunks[m]?, buf.chunks[m + 1]? with
  | some a, some b =>
    if a.length + b.length ≤ BUFCHUNK_SIZE then
      let buf5 := { buf with
        chunks := lerase (buf.chunks.set m (a ++ b)) (m + 1),
        poolFree := buf.poolFree + 1 }
      let buf6 := if buf5.cursorIdx = m + 1
                  then { buf5 with cursorIdx := m, cursorRel := buf5.cursorRel + a.length }
                  else { buf5 with cursorIdx := adjustIdx buf5.cursorIdx (m + 1) }
      if buf6.rowoffChunk = some (m + 1)
      then { buf6 with rowoffChunk := none }
      else { buf6 with rowoffChunk := adjustPtr buf6.rowoffChunk (m + 1) }
    else buf
  | _, _ => buf

/-- The two cleanup passes of `bufclient_delete_char` (src lines 668-738):
removal of a newly-empty non-`begin` chunk at `dIdx` (moving the cursor to
the end of its predecessor), then the merge-forward pass. -/
def deleteCleanup (buf : Bufclient) (dIdx : Nat) : Bufclient :=
  let step1 : Bufclient × Nat :=
    if (chunkAt buf dIdx).length = 0 ∧ dIdx ≠ 0 then
      ({ buf with
         chunks := lerase buf.chunks dIdx,
         cursorIdx := dIdx - 1,
         cursorRel := (chunkAt buf (dIdx - 1)).length,
         rowoffChunk := adjustPtr buf.rowoffChunk dIdx,
         poolFree := buf.poolFree + 1 }, dIdx - 1)
    else (buf, dIdx)
  deleteMerge step1.1 step1.2

/-- `bufclient_delete_char`: delete the byte before the cursor.  No-op at
offset 0.  After the in-chunk shift and the cursor/coordinate/goal-column
update come the two cleanup passes. -/
def bufclient_delete_char (buf : Bufclient) : RES × Bufclient :=
  if buf.cursorAbs = 0 then (RES.ok, buf)
  else
    let delAbs := buf.cursorAbs - 1
    match bufclient_find_pos buf (delAbs : Int) with
    | none => (RES.err, buf)
    | some (dIdx, dRel) =>
      let buf1 := if buf.rowoffChunk.isSome ∧ delAbs < buf.rowoffAbs
                  then { buf with rowoffChunk := none } else buf
      let buf2 := { buf1 with
        chunks := buf1.chunks.set dIdx (lerase (chunkAt buf1 dIdx) dRel),
        size := buf1.size - 1, dirty := true,
        cursorAbs := delAbs, cursorIdx := dIdx, cursorRel := dRel }
      let b3 := (bufclient_update_cursor_coords buf2).2
      let buf3 := { b3 with goalX := b3.cursorX }
      (RES.ok, deleteCleanup buf3 dIdx)

/-! ## `bufclient_move_cursor_to` (src lines 743-767) -/

/-- `bufclient_move_cursor_to`: clamp into `[0, size]`, locate, update the
coordinates, and redefine the goal column.  On a locate failure nothing is
written (the C outputs are only written on success). -/
def bufclient_move_cursor_to (buf : Bufclient) (target : Int) : Bufclient :=
  let t : Int := if target < 0 then 0
                 else if target > (buf.size : Int) then (buf.size : Int) else target
  match bufclient_find_pos buf t with
  | some (idx, rel) =>
    let b2 := (bufclient_update_cursor_coords
      { buf with cursorIdx := idx, cursorRel := rel, cursorAbs := t.toNat }).2
    { b2 with goalX := b2.cursorX }
  | none => buf

/-! ## `bufclient_move_cursor_relative` (src lines 769-1004) -/

/-- Inner byte scan of the goal-column seek used by the up/down arms (lines
845-889 and 910-950): stop before a newline; stop before a character whose
width would overshoot the goal column; stop after one that lands exactly on
it.  Here a tab is `TAB_STOP - x % TAB_STOP` wide and a control byte
(`iscntrl`: below 32 or 127) is 2 wide.  Returns (done, x, target abs). -/
def seekInner (goal : Nat) : List Nat → Nat → Nat → Bool × Nat × Nat
  | [], x, t => (false, x, t)
  | b :: rest, x, t =>
    if b = 10 then (true, x, t)
    else
      let w := if b = 9 then TAB_STOP - x % TAB_STOP
               else if b < 32 ∨ b = 127 then 2 else 1
      if x + w > goal then (true, x, t)
      else if x + w = goal then (true, x + w, t + 1)
      else seekInner goal rest (x + w) (t + 1)

/-- Outer chunk walk of the goal-column seek. -/
def seekOuter (goal : Nat) : List Chunk → Nat → Nat → Nat
  | [], _, t => t
  | c :: rest, x, t =>
    match seekInner goal c x t with
    | (true, _, t2) => t2
    | (false, x2, t2) => seekOuter goal rest x2 t2

/-- The goal-column seek started at line position `(idx, rel)` with absolute
index `sabs`. -/
def seekFrom (buf : Bufclient) (goal idx rel sabs : Nat) : Nat :=
  match buf.chunks.drop idx with
  | [] => sabs
  | c :: rest =>
    match seekInner goal (c.drop rel) 0 sabs with
    | (true, _, t2) => t2
    | (false, x2, t2) => seekOuter goal rest x2 t2

/-- The cursor-state update shared by all four arms (lines 975-1003): when
the target offset differs from the current one, install it, derive
`(cursor_chunk, cursor_rel_i)` either from the efficiently tracked pair
(`eff = some _`) or through `bufclient_find_pos` (`need_full_update`), run
the coordinate update, and redefine the goal column on horizontal moves
only.  A locate failure reverts the absolute index and restores the chunk
position for it, leaving the move unapplied. -/
def moveRelFinish (buf : Bufclient) (t : Nat) (eff : Option (Nat × Nat)) (horizontal : Bool) :
    Bufclient :=
  if t = buf.cursorAbs then buf
  else
    let b1 := { buf with cursorAbs := t }
    let found : Option Bufclient :=
      match eff with
      | some (i, r) => some { b1 with cursorIdx := i, cursorRel := r }
      | none =>
        match bufclient_find_pos b1 (t : Int) with
        | some (i, r) => some { b1 with cursorIdx := i, cursorRel := r }
        | none => none
    match found with
    | none =>
      let b3 := { b1 with cursorAbs := buf.cursorAbs }
      match bufclient_find_pos b3 (buf.cursorAbs : Int) with
      | some (i, r) => { b3 with cursorIdx := i, cursorRel := r }
      | none => b3
    | some b2 =>
      let b4 := (bufclient_update_cursor_coords b2).2
      if horizontal then { b4 with goalX := b4.cursorX } else b4

/-- `bufclient_move_cursor_relative`.  Left/right steps track the chunk
position in O(1) where the source does, falling back to a full locate
otherwise; up/down find the adjacent line's start and seek the goal column
along it (the source sets `need_full_update = 1` on both vertical arms, so
the seek's tracked chunk position is never used except by the down arm's
end-of-buffer clamp). -/
def bufclient_move_cursor_relative (buf : Bufclient) (key : Key) : Bufclient :=
  match key with
  | .left =>
    if buf.cursorAbs > 0 then
      let eff : Option (Nat × Nat) :=
        if buf.cursorRel > 0 then some (buf.cursorIdx, buf.cursorRel - 1)
        else if buf.cursorIdx < buf.chunks.length ∧ 0 < buf.cursorIdx then
          some (buf.cursorIdx - 1, (chunkAt buf (buf.cursorIdx - 1)).length - 1)
        else none
      moveRelFinish buf (buf.cursorAbs - 1) eff true
    else buf
  | .right =>
    if buf.cursorAbs < buf.size then
      let t := buf.cursorAbs + 1
      let eff : Option (Nat × Nat) :=
        if buf.cursorIdx < buf.chunks.length ∧ buf.cursorRel < (chunkAt buf buf.cursorIdx).length
        then some (buf.cursorIdx, buf.cursorRel + 1)
        else if buf.cursorIdx + 1 < buf.chunks.length then
          some (buf.cursorIdx + 1, if t = buf.size then (chunkAt buf (buf.cursorIdx + 1)).length else 0)
        else if t = buf.size then
          some (buf.chunks.length - 1, (buf.chunks.getLast?.getD []).length)
        else none
      moveRelFinish buf t eff true
    else buf
  | .up =>
    if buf.cursorY = 0 then buf
    else
      match bufclient_find_line_start buf (buf.cursorY - 1) with
      | (RES.ok, li, lr, la) =>
        moveRelFinish buf (seekFrom buf buf.goalX li lr la) none false
      | (RES.err, _, _, _) => buf
  | .down =>
    match bufclient_find_line_start buf (buf.cursorY + 1) with
    | (RES.ok, li, lr, la) =>
      let t := seekFrom buf buf.goalX li lr la
      if t > buf.size then
        moveRelFinish buf buf.size
          (some (buf.chunks.length - 1, (buf.chunks.getLast?.getD []).length)) false
      else moveRelFinish buf t none false
    | (RES.err, _, _, _) => buf

/-! ## Initialization and operation sequences -/

/-- `bufclient_init` applied to the freshly-initialized pool: one empty chunk
taken from the pool of `BUFCHUNK_COUNT`, every other field zeroed, and the
`rowoff` cache valid at the beginning of the buffer. -/
def initBuf : Bufclient := {
  chunks := [[]], cursorIdx := 0, cursorRel := 0, cursorAbs := 0,
  cursorY := 0, cursorX := 0, goalX := 0, size := 0, dirty := false,
  rowoff := 0, rowoffChunk := some 0, rowoffRel := 0, rowoffAbs := 0,
  poolFree := BUFCHUNK_COUNT - 1 }

/-- One editing or navigation operation of the buffer API. -/
inductive Op where
  | ins (c : Nat)
  | del
  | moveTo (t : Int)
  | moveRel (k : Key)
deriving DecidableEq, Repr

/-- Apply one operation (a failed insert or delete leaves the returned
state, exactly as the C buffer is left). -/
def applyOp (s : Bufclient) : Op → Bufclient
  | .ins c => (bufclient_insert_char s c).2
  | .del => (bufclient_delete_char s).2
  | .moveTo t => bufclient_move_cursor_to s t
  | .moveRel k => bufclient_move_cursor_relative s k

/-- Run a sequence of operations from the initial buffer. -/
def runOps (ops : List Op) : Bufclient := ops.foldl applyOp initBuf

/-- Buffer states reachable from the initial buffer by inserts, deletes and
cursor moves. -/
inductive Reachable : Bufclient → Prop where
  | init : Reachable initBuf
  | step : ∀ s op, Reachable s → Reachable (applyOp s op)

/-- The compaction property claimed by the spec: no two adjacent live chunks
fit together in one chunk. -/
def Compacted (s : Bufclient) : Prop :=
  ∀ i < s.chunks.length - 1,
    BUFCHUNK_SIZE < (chunkAt s i).length + (chunkAt s (i + 1)).length

instance (s : Bufclient) : Decidable (Compacted s) := by
  unfold Compacted; infer_instance

/-! ## Well-formedness -/

/-- Consistency of the three-way cursor representation: the chunk index is in
range, the relative index is within the chunk, and the absolute index is the
sum of the sizes of the preceding chunks plus the relative index. -/
def CursorOk (s : Bufclient) : Prop :=
  s.cursorIdx < s.chunks.length ∧
  s.cursorRel ≤ (chunkAt s s.cursorIdx).length ∧
  s.cursorAbs = prefixLen s.chunks s.cursorIdx + s.cursorRel

/-- Structural well-formedness of a buffer state: at least one live chunk,
no chunk over capacity, no empty chunk unless it is the sole chunk, the
stored `size` equal to the sum of chunk sizes, a consistent cursor, and
pool-conservation (live chunks plus free chunks = `BUFCHUNK_COUNT`). -/
def StructWF (s : Bufclient) : Prop :=
  s.chunks ≠ [] ∧
  (∀ c ∈ s.chunks, c.length ≤ BUFCHUNK_SIZE) ∧
  (1 < s.chunks.length → ∀ c ∈ s.chunks, c ≠ []) ∧
  s.size = totalLen s.chunks ∧
  CursorOk s ∧
  s.chunks.length + s.poolFree = BUFCHUNK_COUNT

/-- The `rowoff` cache exactly as `bufclient_init` leaves it: the start of
line 0 at the head of the buffer.  Sequences of inserts, deletes and cursor
moves never change it (only the excluded view layer ever re-targets it), so
it is part of the reachable-state invariant. -/
def CacheInit (s : Bufclient) : Prop :=
  s.rowoffChunk = some 0 ∧ s.rowoffRel = 0 ∧ s.rowoffAbs = 0 ∧ s.rowoff = 0

/-- Full well-formedness: structure plus the initial cache. -/
def WF (s : Bufclient) : Prop := StructWF s ∧ CacheInit s

instance (s : Bufclient) : Decidable (CursorOk s) := by unfold CursorOk; infer_instance
instance (s : Bufclient) : Decidable (StructWF s) := by unfold StructWF; infer_instance
instance (s : Bufclient) : Decidable (CacheInit s) := by unfold CacheInit; infer_instance
instance (s : Bufclient) : Decidable (WF s) := by unfold WF; infer_instance

/-! ## Chunk-list arithmetic -/

theorem prefixLen_zero (l : List Chunk) : prefixLen l 0 = 0 := rfl

theorem prefixLen_nil (i : Nat) : prefixLen [] i = 0 := by
  simp [prefixLen]

theorem prefixLen_cons (c : Chunk) (l : List Chunk) (i : Nat) :
    prefixLen (c :: l) (i + 1) = c.length + prefixLen l i := by
  simp [prefixLen, List.take_succ_cons]

theorem totalLen_cons (c : Chunk) (l : List Chunk) :
    totalLen (c :: l) = c.length + totalLen l := by
  simp [totalLen]

theorem totalLen_append (a b : List Chunk) :
    totalLen (a ++ b) = totalLen a + totalLen b := by
  simp [totalLen]

theorem prefixLen_length (l : List Chunk) : prefixLen l l.length = totalLen l := by
  simp [prefixLen, totalLen]

theorem prefixLen_succ (l : List Chunk) (i : Nat) (h : i < l.length) :
    prefixLen l (i + 1) = prefixLen l i + (l[i]?.getD []).length := by
  induction l generalizing i with
  | nil => simp at h
  | cons c rest ih =>
    cases i with
    | zero => simp [prefixLen_cons, prefixLen]
    | succ j =>
      have hj : j < rest.length := by simpa using h
      simp only [prefixLen_cons, List.getElem?_cons_succ, ih j hj]
      omega

theorem prefixLen_le_totalLen (l : List Chunk) (i : Nat) : prefixLen l i ≤ totalLen l := by
  induction l generalizing i with
  | nil => simp [prefixLen_nil, totalLen]
  | cons c rest ih =>
    cases i with
    | zero => simp [prefixLen_zero]
    | succ j =>
      have := ih j
      simp only [prefixLen_cons, totalLen_cons]
      omega

theorem length_flatten_eq_totalLen (l : List Chunk) : l.flatten.length = totalLen l := by
  simp [totalLen, List.length_flatten]

/-- Decomposition of a chunk list at an in-range index. -/
theorem chunks_decomp (l : List Chunk) (i : Nat) (h : i < l.length) :
    l = l.take i ++ (l[i]?.getD []) :: l.drop (i + 1) := by
  induction l generalizing i with
  | nil => simp at h
  | cons c rest ih =>
    cases i with
    | zero => simp
    | succ j =>
      have hj : j < rest.length := by simpa using h
      simpa using congrArg (c :: ·) (ih j hj)

theorem set_decomp (l : List Chunk) (i : Nat) (x : Chunk) (h : i < l.length) :
    l.set i x = l.take i ++ x :: l.drop (i + 1) := by
  rw [List.set_eq_take_append_cons_drop, if_pos h]

theorem prefixLen_take_eq (l : List Chunk) (i : Nat) :
    ((l.take i).flatten).length = prefixLen l i := by
  rw [length_flatten_eq_totalLen]; rfl

theorem linsert_append_right {α : Type} (A B : List α) (r : Nat) (c : α) :
    linsert (A ++ B) (A.length + r) c = A ++ linsert B r c := by
  simp only [linsert, List.take_append_eq_append_take, List.drop_append_eq_append_drop]
  simp [List.take_of_length_le (by omega : A.length ≤ A.length + r),
        List.drop_of_length_le (by omega : A.length ≤ A.length + r)]

theorem linsert_append_left {α : Type} (A B : List α) (r : Nat) (c : α) (h : r ≤ A.length) :
    linsert (A ++ B) r c = linsert A r c ++ B := by
  simp only [linsert, List.take_append_of_le_length h, List.drop_append_of_le_length h]
  simp

theorem lerase_append_right {α : Type} (A B : List α) (r : Nat) :
    lerase (A ++ B) (A.length + r) = A ++ lerase B r := by
  simp only [lerase, List.take_append_eq_append_take, List.drop_append_eq_append_drop]
  rw [List.take_of_length_le (by omega : A.length ≤ A.length + r),
      List.drop_of_length_le (by omega : A.length ≤ A.length + r + 1)]
  have h2 : A.length + r - A.length = r := by omega
  have h3 : A.length + r + 1 - A.length = r + 1 := by omega
  rw [h2, h3]
  simp

theorem lerase_append_left {α : Type} (A B : List α) (r : Nat) (h : r < A.length) :
    lerase (A ++ B) r = lerase A r ++ B := by
  simp only [lerase, List.take_append_of_le_length (by omega : r ≤ A.length),
             List.drop_append_of_le_length (by omega : r + 1 ≤ A.length)]
  simp

theorem length_linsert {α : Type} (l : List α) (i : Nat) (a : α) (h : i ≤ l.length) :
    (linsert l i a).length = l.length + 1 := by
  simp [linsert]; omega

theorem length_lerase {α : Type} (l : List α) (i : Nat) (h : i < l.length) :
    (lerase l i).length = l.length - 1 := by
  simp [lerase]; omega

theorem linsert_nil {α : Type} (i : Nat) (a : α) : linsert [] i a = [a] := by
  simp [linsert]

theorem lerase_linsert {α : Type} (l : List α) (i : Nat) (a : α) (h : i ≤ l.length) :
    lerase (linsert l i a) i = l := by
  have hlen : (l.take i).length = i := by simp; omega
  simp only [linsert, lerase]
  rw [List.take_append_of_le_length (by omega), List.drop_append_eq_append_drop,
      List.drop_of_length_le (by omega : (l.take i).length ≤ i + 1), hlen]
  have h2 : i + 1 - i = 1 := by omega
  rw [h2]
  simp [List.take_take]

theorem totalLen_set (l : List Chunk) (i : Nat) (x : Chunk) (h : i < l.length) :
    totalLen (l.set i x) + (l[i]?.getD []).length = totalLen l + x.length := by
  rw [set_decomp l i x h]
  conv_rhs => rw [chunks_decomp l i h]
  simp [totalLen_append, totalLen_cons]
  omega

/-- Flattening a chunk list decomposed at index `i`. -/
theorem flatten_decomp (l : List Chunk) (i : Nat) (h : i < l.length) :
    l.flatten = (l.take i).flatten ++ (l[i]?.getD []) ++ (l.drop (i + 1)).flatten := by
  conv_lhs => rw [chunks_decomp l i h]
  simp

theorem flatten_set (l : List Chunk) (i : Nat) (x : Chunk) (h : i < l.length) :
    (l.set i x).flatten = (l.take i).flatten ++ x ++ (l.drop (i + 1)).flatten := by
  rw [set_decomp l i x h]
  simp

/-- Writing a byte into the chunk at `i` inserts it into the flattened
sequence at the corresponding flat position. -/
theorem flatten_set_linsert (l : List Chunk) (i r : Nat) (c : Nat)
    (hi : i < l.length) (hr : r ≤ (l[i]?.getD []).length) :
    (l.set i (linsert (l[i]?.getD []) r c)).flatten =
      linsert l.flatten (prefixLen l i + r) c := by
  rw [flatten_set l i _ hi, flatten_decomp l i hi]
  rw [List.append_assoc, List.append_assoc]
  have hpl : ((l.take i).flatten).length = prefixLen l i := prefixLen_take_eq l i
  rw [← hpl, linsert_append_right]
  congr 1
  rw [← linsert_append_left _ _ _ _ hr]

/-- Deleting a byte from the chunk at `i` erases it from the flattened
sequence at the corresponding flat position. -/
theorem flatten_set_lerase (l : List Chunk) (i r : Nat)
    (hi : i < l.length) (hr : r < (l[i]?.getD []).length) :
    (l.set i (lerase (l[i]?.getD []) r)).flatten =
      lerase l.flatten (prefixLen l i + r) := by
  rw [flatten_set l i _ hi, flatten_decomp l i hi]
  rw [List.append_assoc, List.append_assoc]
  have hpl : ((l.take i).flatten).length = prefixLen l i := prefixLen_take_eq l i
  rw [← hpl, lerase_append_right]
  congr 1
  rw [← lerase_append_left _ _ _ hr]

/-- Splitting a chunk (truncate-and-write plus a carry chunk) also inserts
the byte at the corresponding flat position. -/
theorem flatten_split (l : List Chunk) (i r : Nat) (c : Nat)
    (hi : i < l.length) (hr : r ≤ (l[i]?.getD []).length) :
    (linsert (l.set i ((l[i]?.getD []).take r ++ [c])) (i + 1) ((l[i]?.getD []).drop r)).flatten =
      linsert l.flatten (prefixLen l i + r) c := by
  have hpl : ((l.take i).flatten).length = prefixLen l i := prefixLen_take_eq l i
  have htk : (l.set i ((l[i]?.getD []).take r ++ [c])).take (i + 1) =
      l.take i ++ [(l[i]?.getD []).take r ++ [c]] := by
    rw [set_decomp l i _ hi, List.take_append_eq_append_take]
    simp [List.length_take, Nat.min_eq_left (by omega : i ≤ l.length), List.take_take]
  have hdr : (l.set i ((l[i]?.getD []).take r ++ [c])).drop (i + 1) = l.drop (i + 1) := by
    rw [set_decomp l i _ hi, List.drop_append_eq_append_drop]
    simp [List.length_take, Nat.min_eq_left (by omega : i ≤ l.length)]
  have hlhs : linsert (l.set i ((l[i]?.getD []).take r ++ [c])) (i + 1) ((l[i]?.getD []).drop r)
      = l.take i ++ ((l[i]?.getD []).take r ++ [c]) :: ((l[i]?.getD []).drop r) :: l.drop (i + 1) := by
    simp only [linsert]
    rw [htk, hdr]
    simp
  rw [hlhs, flatten_decomp l i hi, List.append_assoc, ← hpl, linsert_append_right,
      linsert_append_left _ _ _ _ hr]
  simp [linsert, List.append_assoc]

/-- Removing an empty chunk does not change the flattened sequence. -/
theorem flatten_lerase_nil (l : List Chunk) (i : Nat) (hi : i < l.length)
    (hnil : (l[i]?.getD []) = []) :
    (lerase l i).flatten = l.flatten := by
  rw [flatten_decomp l i hi, hnil]
  simp [lerase]

/-- Merging two adjacent chunks does not change the flattened sequence. -/
theorem flatten_merge (l : List Chunk) (m : Nat) (a b : Chunk)
    (hm : l[m]? = some a) (hm1 : l[m + 1]? = some b) :
    (lerase (l.set m (a ++ b)) (m + 1)).flatten = l.flatten := by
  have hmlt : m < l.length := by
    by_contra hc
    rw [List.getElem?_eq_none (by omega)] at hm
    exact Option.noConfusion hm
  have hm1lt : m + 1 < l.length := by
    by_contra hc
    rw [List.getElem?_eq_none (by omega)] at hm1
    exact Option.noConfusion hm1
  have hset : (l.set m (a ++ b)) = l.take m ++ (a ++ b) :: l.drop (m + 1) := set_decomp l m _ hmlt
  have hdrop : l.drop (m + 1) = b :: l.drop (m + 2) := by
    have := chunks_decomp (l.drop (m + 1)) 0 (by simp; omega)
    simpa [hm1, List.getElem?_drop] using this
  rw [hset, hdrop]
  have hlen : (l.take m).length = m := by simp; omega
  have herase : lerase (l.take m ++ (a ++ b) :: b :: l.drop (m + 2)) (m + 1) =
      l.take m ++ (a ++ b) :: l.drop (m + 2) := by
    simp only [lerase]
    rw [List.take_append_eq_append_take, List.drop_append_eq_append_drop, hlen,
        List.take_of_length_le (by omega : (l.take m).length ≤ m + 1),
        List.drop_of_length_le (by omega : (l.take m).length ≤ m + 2)]
    have h1 : m + 1 - m = 1 := by omega
    have h2 : m + 2 - m = 2 := by omega
    rw [h1, h2]
    simp
  rw [herase]
  conv_rhs => rw [chunks_decomp l m hmlt]
  have hgm : l[m]?.getD [] = a := by rw [hm]; rfl
  rw [hgm, hdrop]
  simp

/-! ## `bufclient_find_pos` specification -/

theorem findPosLoop_spec (t : Nat) :
    ∀ (l : List Chunk) (idx base : Nat), base ≤ t → t < base + totalLen l →
    ∃ k, findPosLoop t l idx base = some (idx + k, t - (base + prefixLen l k)) ∧
      k < l.length ∧ base + prefixLen l k ≤ t ∧
      t < base + prefixLen l k + (l[k]?.getD []).length := by
  intro l
  induction l with
  | nil => intro idx base h1 h2; simp [totalLen] at h2; omega
  | cons c rest ih =>
    intro idx base h1 h2
    by_cases hc : t < base + c.length
    · refine ⟨0, ?_, by simp, by simpa [prefixLen_zero], by simpa [prefixLen_zero]⟩
      simp [findPosLoop, h1, hc, prefixLen_zero]
    · have hbase : base + c.length ≤ t := by omega
      have h2' : t < base + c.length + totalLen rest := by
        rw [totalLen_cons] at h2; omega
      obtain ⟨k, hk, hklen, hkle, hklt⟩ := ih (idx + 1) (base + c.length) hbase h2'
      refine ⟨k + 1, ?_, by simp; omega, ?_, ?_⟩
      · simp only [findPosLoop]
        rw [if_neg (by omega)]
        rw [hk]
        congr 2
        · omega
        · rw [prefixLen_cons]; omega
      · rw [prefixLen_cons]; omega
      · rw [prefixLen_cons]; simpa [Nat.add_assoc, Nat.add_comm, Nat.add_left_comm] using hklt

/-- Specification of `bufclient_find_pos` on a well-formed buffer: it
succeeds exactly on `0 ≤ target ≤ size`, and the result is the consistent
(chunk, relative) pair for the target: the sizes of the preceding chunks sum
with the relative index to the target. -/
theorem find_pos_spec (s : Bufclient) (t : Nat)
    (hne : s.chunks ≠ []) (hsz : s.size = totalLen s.chunks) (hle : t ≤ s.size) :
    ∃ i r, bufclient_find_pos s (t : Int) = some (i, r) ∧
      i < s.chunks.length ∧ r ≤ (s.chunks[i]?.getD []).length ∧
      prefixLen s.chunks i + r = t ∧
      (t < s.size → r < (s.chunks[i]?.getD []).length) := by
  by_cases hts : t = s.size
  · have hlen : 0 < s.chunks.length := List.length_pos.mpr hne
    refine ⟨s.chunks.length - 1, (s.chunks.getLast?.getD []).length, ?_, by omega, ?_, ?_, ?_⟩
    · unfold bufclient_find_pos
      rw [if_neg (by omega), if_pos (by exact_mod_cast congrArg Nat.cast hts)]
    · rw [List.getLast?_eq_getElem?]
    · have hsucc := prefixLen_succ s.chunks (s.chunks.length - 1) (by omega)
      have hfull : prefixLen s.chunks (s.chunks.length - 1 + 1) = totalLen s.chunks := by
        have : s.chunks.length - 1 + 1 = s.chunks.length := by omega
        rw [this, prefixLen_length]
      rw [List.getLast?_eq_getElem?]
      omega
    · intro hlt; omega
  · have hlt : t < s.size := by omega
    obtain ⟨k, hk, hklen, hkle, hklt⟩ :=
      findPosLoop_spec t s.chunks 0 0 (by omega) (by rw [← hsz]; omega)
    refine ⟨k, t - prefixLen s.chunks k, ?_, hklen, by omega, by omega, by omega⟩
    unfold bufclient_find_pos
    rw [if_neg (by omega), if_neg (by exact_mod_cast fun h => hts (by exact_mod_cast h))]
    simpa using hk

/-- `bufclient_find_pos` fails exactly on out-of-range targets. -/
theorem find_pos_none_iff (s : Bufclient) (t : Int)
    (hne : s.chunks ≠ []) (hsz : s.size = totalLen s.chunks) :
    bufclient_find_pos s t = none ↔ (t < 0 ∨ t > (s.size : Int)) := by
  constructor
  · intro h
    by_contra hc
    push_neg at hc
    obtain ⟨h0, h1⟩ := hc
    have ht : t = ((t.toNat : Nat) : Int) := by omega
    have hle : t.toNat ≤ s.size := by omega
    obtain ⟨i, r, heq, -⟩ := find_pos_spec s t.toNat hne hsz hle
    rw [← ht] at heq
    rw [heq] at h
    exact Option.noConfusion h
  · intro h
    unfold bufclient_find_pos
    rw [if_pos (by omega)]

/-! ## `bufclient_update_cursor_coords` specification -/

theorem uccInner_spec (t : Nat) :
    ∀ (data : List Nat) (rel abs y x : Nat), ∃ y2 x2,
      uccInner t data rel abs y x =
        (rel + min data.length (t - abs), abs + min data.length (t - abs), y2, x2) := by
  intro data
  induction data with
  | nil => intro rel abs y x; exact ⟨y, x, by simp [uccInner]⟩
  | cons b rest ih =>
    intro rel abs y x
    by_cases habs : abs < t
    · have hmin : min (rest.length + 1) (t - abs) = min rest.length (t - abs - 1) + 1 := by
        omega
      by_cases hb : b = 10
      · obtain ⟨y2, x2, h⟩ := ih (rel + 1) (abs + 1) (y + 1) 0
        refine ⟨y2, x2, ?_⟩
        simp only [uccInner, if_pos habs, if_pos hb]
        rw [h]
        simp [hmin]
        omega
      · by_cases hb9 : b = 9
        · obtain ⟨y2, x2, h⟩ := ih (rel + 1) (abs + 1) y (x + (TAB_STOP - x % TAB_STOP))
          refine ⟨y2, x2, ?_⟩
          simp only [uccInner, if_pos habs, if_neg hb, if_pos hb9]
          rw [h]
          simp [hmin]
          omega
        · obtain ⟨y2, x2, h⟩ := ih (rel + 1) (abs + 1) y (x + 1)
          refine ⟨y2, x2, ?_⟩
          simp only [uccInner, if_pos habs, if_neg hb, if_neg hb9]
          rw [h]
          simp [hmin]
          omega
    · refine ⟨y, x, ?_⟩
      have ht : t - abs = 0 := by omega
      simp [uccInner, if_neg habs, ht]

theorem uccOuter_spec (t : Nat) :
    ∀ (l : List Chunk) (idx abs y x : Nat), abs ≤ t → t ≤ abs + totalLen l →
    ∃ k r y2 x2, uccOuter t l idx 0 abs y x = some (idx + k, r, y2, x2) ∧
      abs + prefixLen l k + r = t ∧
      ((k < l.length ∧ r ≤ (l[k]?.getD []).length) ∨ (l = [] ∧ k = 0 ∧ r = 0)) := by
  intro l
  induction l with
  | nil =>
    intro idx abs y x h1 h2
    have : abs = t := by simp [totalLen] at h2; omega
    exact ⟨0, 0, y, x, by simp [uccOuter, this], by simp [prefixLen_nil]; omega, Or.inr ⟨rfl, rfl, rfl⟩⟩
  | cons c rest ih =>
    intro idx abs y x h1 h2
    by_cases habs : abs < t
    · obtain ⟨y2, x2, hinner⟩ := uccInner_spec t c 0 abs y x
      by_cases hfits : abs + c.length < t
      · have hmin : min c.length (t - abs) = c.length := by omega
        have habs2 : abs + c.length ≤ t := by omega
        have h2' : t ≤ abs + c.length + totalLen rest := by
          rw [totalLen_cons] at h2; omega
        obtain ⟨k, r, y3, x3, hout, hsum, hcase⟩ := ih (idx + 1) (abs + c.length) y2 x2 habs2 h2'
        refine ⟨k + 1, r, y3, x3, ?_, ?_, ?_⟩
        · simp only [uccOuter, if_pos habs, List.drop_zero]
          rw [hinner, hmin]
          dsimp only
          rw [if_pos (by omega : abs + c.length < t), hout]
          congr 2
          omega
        · rw [prefixLen_cons]; omega
        · rcases hcase with ⟨hk, hr⟩ | ⟨hrest, hk, hr⟩
          · exact Or.inl ⟨by simp; omega, by simpa using hr⟩
          · subst hrest
            simp [totalLen] at h2'
            omega
      · have hmin : min c.length (t - abs) = t - abs := by omega
        refine ⟨0, t - abs, y2, x2, ?_, by simp [prefixLen_zero]; omega, Or.inl ⟨by simp, by simp; omega⟩⟩
        simp only [uccOuter, if_pos habs, List.drop_zero]
        rw [hinner, hmin]
        dsimp only
        rw [if_neg (by omega : ¬ abs + (t - abs) < t)]
        congr 3
        omega
    · have : abs = t := by omega
      exact ⟨0, 0, y, x, by simp [uccOuter, this], by simp [prefixLen_zero]; omega,
        Or.inl ⟨by simp, by simp⟩⟩

/-- Specification of `bufclient_update_cursor_coords` on a buffer whose
chunk list is non-empty and accounts for `size`, whose cursor offset is in
range, and whose `rowoff` cache is either absent or the initial one: it
succeeds, touches only the cursor fields, and re-derives a consistent
(chunk, relative) pair for the cursor offset. -/
theorem ucc_spec (s : Bufclient)
    (hne : s.chunks ≠ []) (hsz : s.size = totalLen s.chunks) (hab : s.cursorAbs ≤ s.size)
    (hcache : s.rowoffChunk = none ∨
      (s.rowoffChunk = some 0 ∧ s.rowoffRel = 0 ∧ s.rowoffAbs = 0)) :
    ∃ i r y x, bufclient_update_cursor_coords s =
      (RES.ok, { s with cursorY := y, cursorX := x, cursorIdx := i, cursorRel := r }) ∧
      i < s.chunks.length ∧ r ≤ (s.chunks[i]?.getD []).length ∧
      prefixLen s.chunks i + r = s.cursorAbs := by
  have hlen : 0 < s.chunks.length := List.length_pos.mpr hne
  have hstart : ∃ y0, (match s.rowoffChunk with
      | some i => if s.rowoffAbs ≤ s.cursorAbs then (i, s.rowoffRel, s.rowoffAbs, s.rowoff)
                  else (0, 0, 0, 0)
      | none => ((0 : Nat), (0 : Nat), (0 : Nat), (0 : Nat))) = (0, 0, 0, y0) := by
    rcases hcache with h | ⟨h1, h2, h3⟩
    · exact ⟨0, by rw [h]⟩
    · exact ⟨s.rowoff, by rw [h1, h2, h3]; simp⟩
  obtain ⟨y0, hy0⟩ := hstart
  obtain ⟨k, r, y2, x2, hout, hsum, hcase⟩ :=
    uccOuter_spec s.cursorAbs s.chunks 0 0 y0 0 (by omega) (by omega)
  simp only [Nat.zero_add] at hout
  rcases hcase with ⟨hk, hr⟩ | ⟨hnil, -, -⟩
  · have hdropk : s.chunks.drop k = (s.chunks[k]?.getD []) :: s.chunks.drop (k + 1) := by
      rw [List.drop_eq_getElem_cons hk, List.getElem?_eq_getElem hk]
      rfl
    have hnorme : (match s.chunks.drop k with
        | [] => (k, r)
        | c :: rest =>
          if r = c.length ∧ rest ≠ [] ∧ s.cursorAbs < s.size then (k + 1, 0)
          else (k, r) : Nat × Nat) =
        (if r = (s.chunks[k]?.getD []).length ∧ s.chunks.drop (k + 1) ≠ [] ∧
            s.cursorAbs < s.size then (k + 1, 0) else (k, r)) := by
      rw [hdropk]
    by_cases hsz0 : s.size = 0
    · refine ⟨0, 0, y2, x2, ?_, by omega, by simp, by simp [prefixLen_zero]; omega⟩
      unfold bufclient_update_cursor_coords
      rw [if_neg (by omega)]
      simp only [hy0, List.drop_zero]
      rw [hout]
      dsimp only
      rw [hnorme]
      simp [hsz0]
    · by_cases hnorm : r = (s.chunks[k]?.getD []).length ∧ s.chunks.drop (k + 1) ≠ [] ∧
          s.cursorAbs < s.size
      · have hk1 : k + 1 < s.chunks.length := by
          rcases hnorm with ⟨-, hrest, -⟩
          by_contra hc
          exact hrest (List.drop_eq_nil_of_le (by omega))
        refine ⟨k + 1, 0, y2, x2, ?_, hk1, by simp, ?_⟩
        · unfold bufclient_update_cursor_coords
          rw [if_neg (by omega)]
          simp only [hy0, List.drop_zero]
          rw [hout]
          dsimp only
          rw [hnorme]
          simp [hsz0, hnorm]
        · rw [prefixLen_succ s.chunks k hk]
          omega
      · refine ⟨k, r, y2, x2, ?_, hk, hr, by omega⟩
        have hnorm2 : ¬(r = List.length (s.chunks[k]?.getD []) ∧ k + 1 < s.chunks.length ∧
            s.cursorAbs < s.size) := by
          intro hcon
          refine hnorm ⟨hcon.1, ?_, hcon.2.2⟩
          have := hcon.2.1
          simp [List.drop_eq_nil_iff]
          omega
        unfold bufclient_update_cursor_coords
        rw [if_neg (by omega)]
        simp only [hy0, List.drop_zero]
        rw [hout]
        dsimp only
        rw [hnorme]
        simp [hsz0, hnorm, hnorm2]
  · exact absurd hnil hne

/-! ## Index bookkeeping for `linsert`/`lerase`/`set` on chunk lists -/

theorem linsert_cons_succ {α : Type} (c : α) (l : List α) (j : Nat) (a : α) :
    linsert (c :: l) (j + 1) a = c :: linsert l j a := by
  simp [linsert]

theorem lerase_cons_succ {α : Type} (c : α) (l : List α) (j : Nat) :
    lerase (c :: l) (j + 1) = c :: lerase l j := by
  simp [lerase]

theorem getElem?_linsert_self {α : Type} (l : List α) (i : Nat) (a : α) (h : i ≤ l.length) :
    (linsert l i a)[i]? = some a := by
  unfold linsert
  rw [List.getElem?_append]
  simp [List.length_take, Nat.min_eq_left h]

theorem getElem?_linsert_lt {α : Type} (l : List α) (i j : Nat) (a : α)
    (hj : j < i) (hi : i ≤ l.length) :
    (linsert l i a)[j]? = l[j]? := by
  unfold linsert
  rw [List.getElem?_append]
  rw [if_pos (by simp [List.length_take]; omega)]
  rw [List.getElem?_take]
  simp [hj]

theorem getElem?_linsert_gt {α : Type} (l : List α) (i j : Nat) (a : α)
    (hj : i < j) (hi : i ≤ l.length) :
    (linsert l i a)[j]? = l[j - 1]? := by
  unfold linsert
  rw [List.getElem?_append]
  rw [if_neg (by simp [List.length_take]; omega)]
  have hlen : (l.take i).length = i := by simp [List.length_take]; omega
  rw [hlen]
  have hj1 : j - i = (j - i - 1) + 1 := by omega
  rw [hj1]
  simp only [List.getElem?_cons_succ, List.getElem?_drop]
  congr 1
  omega

theorem getElem?_lerase_lt {α : Type} (l : List α) (i j : Nat) (hj : j < i) :
    (lerase l i)[j]? = l[j]? := by
  unfold lerase
  rw [List.getElem?_append]
  by_cases hi : i ≤ l.length
  · rw [if_pos (by simp [List.length_take]; omega)]
    rw [List.getElem?_take]
    simp [hj]
  · rw [List.take_of_length_le (by omega), List.drop_eq_nil_of_le (by omega)]
    simp
theorem getElem?_lerase_ge {α : Type} (l : List α) (i j : Nat) (hj : i ≤ j) (hi : i ≤ l.length) :
    (lerase l i)[j]? = l[j + 1]? := by
  unfold lerase
  rw [List.getElem?_append]
  have hlen : (l.take i).length = i := by simp [List.length_take]; omega
  by_cases hjl : j < i
  · omega
  · rw [if_neg (by omega)]
    rw [hlen, List.getElem?_drop]
    congr 1
    omega

theorem prefixLen_set_le (l : List Chunk) (j : Nat) (x : Chunk) :
    ∀ i, i ≤ j → prefixLen (l.set j x) i = prefixLen l i := by
  induction l generalizing j with
  | nil => intro i h; simp
  | cons c rest ih =>
    intro i h
    cases i with
    | zero => simp [prefixLen_zero]
    | succ i2 =>
      cases j with
      | zero => omega
      | succ j2 =>
        simp only [List.set_cons_succ, prefixLen_cons]
        rw [ih j2 i2 (by omega)]

theorem prefixLen_linsert_le (l : List Chunk) (j : Nat) (a : Chunk) (hj : j ≤ l.length) :
    ∀ i, i ≤ j → prefixLen (linsert l j a) i = prefixLen l i := by
  induction l generalizing j with
  | nil =>
    intro i h
    simp at hj
    subst hj
    have : i = 0 := by omega
    simp [this, prefixLen_zero]
  | cons c rest ih =>
    intro i h
    cases j with
    | zero =>
      have : i = 0 := by omega
      simp [this, prefixLen_zero]
    | succ j2 =>
      rw [linsert_cons_succ]
      cases i with
      | zero => simp [prefixLen_zero]
      | succ i2 =>
        simp only [prefixLen_cons]
        rw [ih j2 (by simp at hj; omega) i2 (by omega)]

theorem prefixLen_lerase_le (l : List Chunk) (j : Nat) :
    ∀ i, i ≤ j → prefixLen (lerase l j) i = prefixLen l i := by
  induction l generalizing j with
  | nil => intro i h; simp [lerase]
  | cons c rest ih =>
    intro i h
    cases j with
    | zero =>
      have : i = 0 := by omega
      simp [this, prefixLen_zero]
    | succ j2 =>
      rw [lerase_cons_succ]
      cases i with
      | zero => simp [prefixLen_zero]
      | succ i2 =>
        simp only [prefixLen_cons]
        rw [ih j2 i2 (by omega)]

theorem mem_linsert {α : Type} (l : List α) (i : Nat) (a : α) (x : α)
    (h : x ∈ linsert l i a) : x ∈ l ∨ x = a := by
  unfold linsert at h
  rcases List.mem_append.mp h with h1 | h2
  · exact Or.inl (List.mem_of_mem_take h1)
  · rcases List.mem_cons.mp h2 with h3 | h4
    · exact Or.inr h3
    · exact Or.inl (List.mem_of_mem_drop h4)

theorem mem_lerase {α : Type} (l : List α) (i : Nat) (x : α)
    (h : x ∈ lerase l i) : x ∈ l := by
  unfold lerase at h
  rcases List.mem_append.mp h with h1 | h2
  · exact List.mem_of_mem_take h1
  · exact List.mem_of_mem_drop h2

/-! ## `bufclient_insert_char` specification -/

/-- The effective insertion point is in range and consistent with the cursor
offset. -/
theorem insertTarget_spec (s : Bufclient) (h : StructWF s) :
    (insertTarget s).1 < s.chunks.length ∧
    (insertTarget s).2 ≤ (chunkAt s (insertTarget s).1).length ∧
    prefixLen s.chunks (insertTarget s).1 + (insertTarget s).2 = s.cursorAbs := by
  obtain ⟨hne, hcap, hemp, hsz, ⟨hidx, hrel, habs⟩, hpool⟩ := h
  have hsome : s.chunks[s.cursorIdx]? = some s.chunks[s.cursorIdx] :=
    List.getElem?_eq_getElem hidx
  unfold insertTarget
  rw [hsome]
  dsimp only
  by_cases hcond : s.cursorRel = s.chunks[s.cursorIdx].length ∧
      s.cursorIdx + 1 < s.chunks.length
  · rw [if_pos hcond]
    refine ⟨hcond.2, by simp, ?_⟩
    rw [prefixLen_succ s.chunks s.cursorIdx hidx]
    have : (s.chunks[s.cursorIdx]?.getD []).length = s.chunks[s.cursorIdx].length := by
      rw [hsome]; rfl
    rw [habs]
    unfold chunkAt at hrel
    omega
  · rw [if_neg hcond]
    dsimp only
    exact ⟨hidx, hrel, by omega⟩

theorem linsert_ne_nil {α : Type} (l : List α) (i : Nat) (a : α) : linsert l i a ≠ [] := by
  unfold linsert
  intro h
  rcases List.append_eq_nil.mp h with ⟨-, h2⟩
  exact List.noConfusion h2

theorem length_flat_linsert (L : List Nat) (p : Nat) (c : Nat) (h : p ≤ L.length) :
    (linsert L p c).length = L.length + 1 := length_linsert L p c h

/-- Linking a fresh one-byte chunk at index `i` inserts the byte at the
corresponding flat position. -/
theorem flatten_linsert_single (l : List Chunk) (i : Nat) (c : Nat) (h : i ≤ l.length) :
    (linsert l i [c]).flatten = linsert l.flatten (prefixLen l i) c := by
  have hflat : l.flatten = (l.take i).flatten ++ (l.drop i).flatten := by
    rw [← List.flatten_append, List.take_append_drop]
  have hpl : ((l.take i).flatten).length = prefixLen l i := prefixLen_take_eq l i
  rw [hflat, ← hpl]
  have : prefixLen l i = (l.take i).flatten.length := hpl.symm
  calc (linsert l i [c]).flatten
      = (l.take i).flatten ++ [c] ++ (l.drop i).flatten := by
        unfold linsert; simp
    _ = (l.take i).flatten ++ linsert ((l.drop i).flatten) 0 c := by
        simp [linsert, List.append_assoc]
    _ = linsert ((l.take i).flatten ++ (l.drop i).flatten) ((l.take i).flatten.length + 0) c := by
        rw [linsert_append_right]
    _ = linsert ((l.take i).flatten ++ (l.drop i).flatten) ((l.take i).flatten.length) c := by
        rw [Nat.add_zero]

/-- Master case analysis of `bufclient_insert_char` on a well-formed state:
either the target chunk is full with the pool empty and the call fails
leaving the state untouched, or it succeeds and the new state is well-formed
with the byte inserted at the cursor's flat position, the naive coordinate
update applied, and the goal column redefined. -/
theorem mem_of_getElem?_some {α : Type} (l : List α) (i : Nat) (a : α) (h : l[i]? = some a) :
    a ∈ l := by
  have hi : i < l.length := by
    by_contra hc
    rw [List.getElem?_eq_none (by omega)] at h
    exact Option.noConfusion h
  rw [List.getElem?_eq_getElem hi] at h
  have ha : l[i] = a := by injection h
  rw [← ha]
  exact List.getElem_mem hi

theorem finishInsert_chunks (b : Bufclient) (c : Nat) :
    (finishInsert b c).chunks = b.chunks := by
  by_cases h : c = 10 <;> simp [finishInsert, h]

theorem finishInsert_cursorIdx (b : Bufclient) (c : Nat) :
    (finishInsert b c).cursorIdx = b.cursorIdx := by
  by_cases h : c = 10 <;> simp [finishInsert, h]

theorem finishInsert_cursorRel (b : Bufclient) (c : Nat) :
    (finishInsert b c).cursorRel = b.cursorRel := by
  by_cases h : c = 10 <;> simp [finishInsert, h]

theorem finishInsert_cursorAbs (b : Bufclient) (c : Nat) :
    (finishInsert b c).cursorAbs = b.cursorAbs + 1 := by
  by_cases h : c = 10 <;> simp [finishInsert, h]

theorem finishInsert_size (b : Bufclient) (c : Nat) :
    (finishInsert b c).size = b.size + 1 := by
  by_cases h : c = 10 <;> simp [finishInsert, h]

theorem finishInsert_dirty (b : Bufclient) (c : Nat) :
    (finishInsert b c).dirty = true := by
  by_cases h : c = 10 <;> simp [finishInsert, h]

theorem finishInsert_rowoff (b : Bufclient) (c : Nat) :
    (finishInsert b c).rowoff = b.rowoff := by
  by_cases h : c = 10 <;> simp [finishInsert, h]

theorem finishInsert_rowoffChunk (b : Bufclient) (c : Nat) :
    (finishInsert b c).rowoffChunk = b.rowoffChunk := by
  by_cases h : c = 10 <;> simp [finishInsert, h]

theorem finishInsert_rowoffRel (b : Bufclient) (c : Nat) :
    (finishInsert b c).rowoffRel = b.rowoffRel := by
  by_cases h : c = 10 <;> simp [finishInsert, h]

theorem finishInsert_rowoffAbs (b : Bufclient) (c : Nat) :
    (finishInsert b c).rowoffAbs = b.rowoffAbs := by
  by_cases h : c = 10 <;> simp [finishInsert, h]

theorem finishInsert_poolFree (b : Bufclient) (c : Nat) :
    (finishInsert b c).poolFree = b.poolFree := by
  by_cases h : c = 10 <;> simp [finishInsert, h]

theorem finishInsert_cursorY (b : Bufclient) (c : Nat) :
    (finishInsert b c).cursorY = (if c = 10 then b.cursorY + 1 else b.cursorY) := by
  by_cases h : c = 10 <;> simp [finishInsert, h]

theorem finishInsert_cursorX (b : Bufclient) (c : Nat) :
    (finishInsert b c).cursorX = (if c = 10 then 0 else b.cursorX + 1) := by
  by_cases h : c = 10 <;> simp [finishInsert, h]

theorem finishInsert_goalX (b : Bufclient) (c : Nat) :
    (finishInsert b c).goalX = (finishInsert b c).cursorX := by
  by_cases h : c = 10 <;> simp [finishInsert, h]

/-- Master case analysis of `bufclient_insert_char` on a well-formed state:
either the effective target chunk is full with the pool exhausted and the
call fails leaving the state untouched, or it succeeds and the new state is
well-formed, with the byte inserted at the cursor's flat position, the naive
coordinate update applied, and the goal column redefined. -/
theorem insert_spec (s : Bufclient) (c : Nat) (h : WF s) :
    ((chunkAt s (insertTarget s).1).length = BUFCHUNK_SIZE ∧ s.poolFree = 0 ∧
      bufclient_insert_char s c = (RES.err, s)) ∨
    (∃ s', bufclient_insert_char s c = (RES.ok, s') ∧ WF s' ∧
      s'.chunks.flatten = linsert s.chunks.flatten s.cursorAbs c ∧
      s'.size = s.size + 1 ∧ s'.cursorAbs = s.cursorAbs + 1 ∧
      s'.cursorY = (if c = 10 then s.cursorY + 1 else s.cursorY) ∧
      s'.cursorX = (if c = 10 then 0 else s.cursorX + 1) ∧
      s'.goalX = s'.cursorX ∧ s'.dirty = true ∧
      s'.rowoffChunk = s.rowoffChunk ∧
      ¬((chunkAt s (insertTarget s).1).length = BUFCHUNK_SIZE ∧ s.poolFree = 0)) := by
  obtain ⟨hp1, hp2, hp3⟩ := insertTarget_spec s h.1
  obtain ⟨⟨hne, hcap, hemp, hsz, ⟨hidx, hrel, habs⟩, hpool⟩, hc0, hc1, hc2, hc3⟩ := h
  obtain ⟨ch, hsome⟩ : ∃ ch, s.chunks[(insertTarget s).1]? = some ch :=
    ⟨_, List.getElem?_eq_getElem hp1⟩
  have hgd : s.chunks[(insertTarget s).1]?.getD [] = ch := by rw [hsome]; rfl
  have hchAt : chunkAt s (insertTarget s).1 = ch := by
    unfold chunkAt
    exact hgd
  rw [hchAt] at hp2
  have hchmem : ch ∈ s.chunks := mem_of_getElem?_some _ _ _ hsome
  have hnocache : ¬(s.rowoffChunk.isSome = true ∧ s.cursorAbs < s.rowoffAbs) := by
    rw [hc2]
    omega
  have habslen : s.cursorAbs ≤ s.chunks.flatten.length := by
    rw [length_flatten_eq_totalLen]
    have := prefixLen_le_totalLen s.chunks ((insertTarget s).1 + 1)
    rw [prefixLen_succ s.chunks (insertTarget s).1 hp1, hgd] at this
    omega
  have hcapch : ch.length ≤ BUFCHUNK_SIZE := hcap ch hchmem
  have hallne : ch.length = BUFCHUNK_SIZE → ∀ x ∈ s.chunks, x ≠ [] := by
    intro hful x hx
    rcases Nat.lt_or_ge 1 s.chunks.length with hlen | hlen
    · exact hemp hlen x hx
    · have hlen1 : s.chunks.length = 1 := by
        have := List.length_pos.mpr hne
        omega
      obtain ⟨a, ha⟩ := List.length_eq_one.mp hlen1
      have hp10 : (insertTarget s).1 = 0 := by omega
      have hax : x = a := by
        rw [ha] at hx
        simpa using hx
      have hcha : a = ch := by
        rw [hp10, ha] at hsome
        simpa using hsome
      intro hxnil
      rw [hax] at hxnil
      rw [hcha] at hxnil
      rw [hxnil] at hful
      simp [BUFCHUNK_SIZE] at hful
  by_cases hlt : ch.length < BUFCHUNK_SIZE
  · right
    refine ⟨finishInsert { s with
        chunks := s.chunks.set (insertTarget s).1 (linsert ch (insertTarget s).2 c),
        cursorIdx := (insertTarget s).1, cursorRel := (insertTarget s).2 + 1 } c, ?_, ?_⟩
    · unfold bufclient_insert_char
      dsimp only
      rw [hsome]
      dsimp only
      rw [if_neg hnocache, if_pos hlt]
    · have hfl : (s.chunks.set (insertTarget s).1 (linsert ch (insertTarget s).2 c)).flatten =
          linsert s.chunks.flatten s.cursorAbs c := by
        rw [← hp3, ← hgd]
        exact flatten_set_linsert s.chunks (insertTarget s).1 (insertTarget s).2 c hp1
          (by rw [hgd]; exact hp2)
      refine ⟨⟨⟨?_, ?_, ?_, ?_, ⟨?_, ?_, ?_⟩, ?_⟩, ?_, ?_, ?_, ?_⟩,
        ?_, ?_, ?_, ?_, ?_, ?_, ?_, ?_, ?_⟩
      · rw [finishInsert_chunks]
        apply List.ne_nil_of_length_pos
        have := List.length_pos.mpr hne
        simpa using this
      · intro x hx
        rw [finishInsert_chunks] at hx
        rcases List.mem_or_eq_of_mem_set hx with hmem | rfl
        · exact hcap x hmem
        · rw [length_linsert _ _ _ hp2]
          omega
      · intro hlen x hx
        rw [finishInsert_chunks] at hx
        rw [finishInsert_chunks] at hlen
        rcases List.mem_or_eq_of_mem_set hx with hmem | rfl
        · exact hemp (by simpa using hlen) x hmem
        · exact linsert_ne_nil _ _ _
      · rw [finishInsert_size, finishInsert_chunks]
        dsimp only
        rw [← length_flatten_eq_totalLen, hfl, length_flat_linsert _ _ _ habslen,
          length_flatten_eq_totalLen]
        omega
      · rw [finishInsert_cursorIdx, finishInsert_chunks]
        simpa using hp1
      · rw [finishInsert_cursorRel, finishInsert_cursorIdx]
        unfold chunkAt
        rw [finishInsert_chunks]
        rw [List.getElem?_set_self', hsome]
        show (insertTarget s).2 + 1 ≤ (linsert ch (insertTarget s).2 c).length
        rw [length_linsert _ _ _ hp2]
        omega
      · rw [finishInsert_cursorAbs, finishInsert_cursorIdx, finishInsert_cursorRel,
          finishInsert_chunks]
        dsimp only
        rw [prefixLen_set_le s.chunks (insertTarget s).1 _ (insertTarget s).1 (by omega)]
        omega
      · rw [finishInsert_chunks, finishInsert_poolFree]
        simpa using hpool
      · rw [finishInsert_rowoffChunk]
        exact hc0
      · rw [finishInsert_rowoffRel]
        exact hc1
      · rw [finishInsert_rowoffAbs]
        exact hc2
      · rw [finishInsert_rowoff]
        exact hc3
      · rw [finishInsert_chunks]
        exact hfl
      · rw [finishInsert_size]
      · rw [finishInsert_cursorAbs]
      · rw [finishInsert_cursorY]
      · rw [finishInsert_cursorX]
      · rw [finishInsert_goalX]
      · rw [finishInsert_dirty]
      · rw [finishInsert_rowoffChunk]
      · intro hcon
        rw [hchAt] at hcon
        omega
  · have hfull : ch.length = BUFCHUNK_SIZE := by omega
    by_cases hpl : s.poolFree = 0
    · left
      refine ⟨by rw [hchAt]; exact hfull, hpl, ?_⟩
      unfold bufclient_insert_char
      dsimp only
      rw [hsome]
      dsimp only
      rw [if_neg hnocache, if_neg (by omega), if_pos hpl]
    · right
      by_cases hend : (insertTarget s).2 = BUFCHUNK_SIZE
      · refine ⟨finishInsert { s with
            chunks := linsert s.chunks ((insertTarget s).1 + 1) [c],
            cursorIdx := (insertTarget s).1 + 1, cursorRel := 1,
            poolFree := s.poolFree - 1 } c, ?_, ?_⟩
        · unfold bufclient_insert_char
          dsimp only
          rw [hsome]
          dsimp only
          rw [if_neg hnocache, if_neg (by omega), if_neg hpl, if_pos hend]
        · have hfl : (linsert s.chunks ((insertTarget s).1 + 1) [c]).flatten =
              linsert s.chunks.flatten s.cursorAbs c := by
            rw [flatten_linsert_single s.chunks ((insertTarget s).1 + 1) c (by omega),
              prefixLen_succ s.chunks (insertTarget s).1 hp1, hgd]
            congr 1
            omega
          refine ⟨⟨⟨?_, ?_, ?_, ?_, ⟨?_, ?_, ?_⟩, ?_⟩, ?_, ?_, ?_, ?_⟩,
            ?_, ?_, ?_, ?_, ?_, ?_, ?_, ?_, ?_⟩
          · rw [finishInsert_chunks]
            exact linsert_ne_nil _ _ _
          · intro x hx
            rw [finishInsert_chunks] at hx
            rcases mem_linsert _ _ _ _ hx with hmem | rfl
            · exact hcap x hmem
            · simp [BUFCHUNK_SIZE]
          · intro hlen x hx
            rw [finishInsert_chunks] at hx
            rcases mem_linsert _ _ _ _ hx with hmem | rfl
            · exact hallne hfull x hmem
            · simp
          · rw [finishInsert_size, finishInsert_chunks]
            dsimp only
            rw [← length_flatten_eq_totalLen, hfl, length_flat_linsert _ _ _ habslen,
              length_flatten_eq_totalLen]
            omega
          · rw [finishInsert_cursorIdx, finishInsert_chunks]
            dsimp only
            rw [length_linsert _ _ _ (by omega)]
            omega
          · rw [finishInsert_cursorRel, finishInsert_cursorIdx]
            unfold chunkAt
            rw [finishInsert_chunks]
            dsimp only
            rw [getElem?_linsert_self _ _ _ (by omega)]
            simp
          · rw [finishInsert_cursorAbs, finishInsert_cursorIdx, finishInsert_cursorRel,
              finishInsert_chunks]
            dsimp only
            rw [prefixLen_linsert_le s.chunks ((insertTarget s).1 + 1) [c] (by omega)
              ((insertTarget s).1 + 1) (by omega)]
            rw [prefixLen_succ s.chunks (insertTarget s).1 hp1, hgd]
            omega
          · rw [finishInsert_chunks, finishInsert_poolFree]
            dsimp only
            rw [length_linsert _ _ _ (by omega)]
            omega
          · rw [finishInsert_rowoffChunk]
            exact hc0
          · rw [finishInsert_rowoffRel]
            exact hc1
          · rw [finishInsert_rowoffAbs]
            exact hc2
          · rw [finishInsert_rowoff]
            exact hc3
          · rw [finishInsert_chunks]
            exact hfl
          · rw [finishInsert_size]
          · rw [finishInsert_cursorAbs]
          · rw [finishInsert_cursorY]
          · rw [finishInsert_cursorX]
          · rw [finishInsert_goalX]
          · rw [finishInsert_dirty]
          · rw [finishInsert_rowoffChunk]
          · intro hcon
            exact hpl hcon.2
      · have hp2lt : (insertTarget s).2 < BUFCHUNK_SIZE := by omega
        refine ⟨finishInsert { s with
            chunks := linsert (s.chunks.set (insertTarget s).1 (ch.take (insertTarget s).2 ++ [c]))
              ((insertTarget s).1 + 1) (ch.drop (insertTarget s).2),
            cursorIdx := (insertTarget s).1, cursorRel := (insertTarget s).2 + 1,
            poolFree := s.poolFree - 1 } c, ?_, ?_⟩
        · unfold bufclient_insert_char
          dsimp only
          rw [hsome]
          dsimp only
          rw [if_neg hnocache, if_neg (by omega), if_neg hpl, if_neg hend]
        · have hfl : (linsert (s.chunks.set (insertTarget s).1
              (ch.take (insertTarget s).2 ++ [c]))
              ((insertTarget s).1 + 1) (ch.drop (insertTarget s).2)).flatten =
              linsert s.chunks.flatten s.cursorAbs c := by
            rw [← hp3, ← hgd]
            exact flatten_split s.chunks (insertTarget s).1 (insertTarget s).2 c hp1
              (by rw [hgd]; exact hp2)
          have hsetlen : (s.chunks.set (insertTarget s).1
              (ch.take (insertTarget s).2 ++ [c])).length = s.chunks.length := by simp
          refine ⟨⟨⟨?_, ?_, ?_, ?_, ⟨?_, ?_, ?_⟩, ?_⟩, ?_, ?_, ?_, ?_⟩,
            ?_, ?_, ?_, ?_, ?_, ?_, ?_, ?_, ?_⟩
          · rw [finishInsert_chunks]
            exact linsert_ne_nil _ _ _
          · intro x hx
            rw [finishInsert_chunks] at hx
            rcases mem_linsert _ _ _ _ hx with hmem | rfl
            · rcases List.mem_or_eq_of_mem_set hmem with hmem2 | rfl
              · exact hcap x hmem2
              · have : (ch.take (insertTarget s).2).length = (insertTarget s).2 := by
                  simp [List.length_take]
                  omega
                simp only [List.length_append, this]
                simp
                omega
            · have : (ch.drop (insertTarget s).2).length = ch.length - (insertTarget s).2 := by
                simp
              omega
          · intro hlen x hx
            rw [finishInsert_chunks] at hx
            rcases mem_linsert _ _ _ _ hx with hmem | rfl
            · rcases List.mem_or_eq_of_mem_set hmem with hmem2 | rfl
              · exact hallne hfull x hmem2
              · intro hcon
                rcases List.append_eq_nil.mp hcon with ⟨-, h2⟩
                exact List.noConfusion h2
            · apply List.ne_nil_of_length_pos
              simp
              omega
          · rw [finishInsert_size, finishInsert_chunks]
            dsimp only
            rw [← length_flatten_eq_totalLen, hfl, length_flat_linsert _ _ _ habslen,
              length_flatten_eq_totalLen]
            omega
          · rw [finishInsert_cursorIdx, finishInsert_chunks]
            dsimp only
            rw [length_linsert _ _ _ (by rw [hsetlen]; omega), hsetlen]
            omega
          · rw [finishInsert_cursorRel, finishInsert_cursorIdx]
            unfold chunkAt
            rw [finishInsert_chunks]
            rw [getElem?_linsert_lt
              (s.chunks.set (insertTarget s).1 (ch.take (insertTarget s).2 ++ [c]))
              ((insertTarget s).1 + 1) (insertTarget s).1 (ch.drop (insertTarget s).2)
              (by omega) (by rw [hsetlen]; omega)]
            rw [List.getElem?_set_self', hsome]
            show (insertTarget s).2 + 1 ≤ (ch.take (insertTarget s).2 ++ [c]).length
            have htklen : (ch.take (insertTarget s).2).length = (insertTarget s).2 := by
              simp [List.length_take]
              omega
            simp [htklen]
          · rw [finishInsert_cursorAbs, finishInsert_cursorIdx, finishInsert_cursorRel,
              finishInsert_chunks]
            dsimp only
            rw [prefixLen_linsert_le _ ((insertTarget s).1 + 1) _ (by rw [hsetlen]; omega)
              (insertTarget s).1 (by omega)]
            rw [prefixLen_set_le s.chunks (insertTarget s).1 _ (insertTarget s).1 (by omega)]
            omega
          · rw [finishInsert_chunks, finishInsert_poolFree]
            dsimp only
            rw [length_linsert _ _ _ (by rw [hsetlen]; omega), hsetlen]
            omega
          · rw [finishInsert_rowoffChunk]
            exact hc0
          · rw [finishInsert_rowoffRel]
            exact hc1
          · rw [finishInsert_rowoffAbs]
            exact hc2
          · rw [finishInsert_rowoff]
            exact hc3
          · rw [finishInsert_chunks]
            exact hfl
          · rw [finishInsert_size]
          · rw [finishInsert_cursorAbs]
          · rw [finishInsert_cursorY]
          · rw [finishInsert_cursorX]
          · rw [finishInsert_goalX]
          · rw [finishInsert_dirty]
          · rw [finishInsert_rowoffChunk]
          · intro hcon
            exact hpl hcon.2

/-! ## `bufclient_delete_char` specification -/

theorem prefixLen_mono (l : List Chunk) (i j : Nat) (h : i ≤ j) :
    prefixLen l i ≤ prefixLen l j := by
  induction l generalizing i j with
  | nil => simp [prefixLen_nil]
  | cons c rest ih =>
    cases i with
    | zero => simp [prefixLen_zero]
    | succ i2 =>
      cases j with
      | zero => omega
      | succ j2 =>
        simp only [prefixLen_cons]
        have := ih i2 j2 (by omega)
        omega

theorem lt_length_of_getElem?_some {α : Type} (l : List α) (i : Nat) (a : α)
    (h : l[i]? = some a) : i < l.length := by
  by_contra hc
  rw [List.getElem?_eq_none (by omega)] at h
  exact Option.noConfusion h

/-- Entry characterization of the merge surgery. -/
theorem getElem?_merge (L : List Chunk) (m : Nat) (a b : Chunk)
    (hma : L[m]? = some a) (hmb : L[m + 1]? = some b) (j : Nat) :
    (lerase (L.set m (a ++ b)) (m + 1))[j]? =
      if j < m then L[j]? else if j = m then some (a ++ b) else L[j + 1]? := by
  have hm1 : m + 1 < L.length := lt_length_of_getElem?_some L (m + 1) b hmb
  by_cases h1 : j < m
  · rw [getElem?_lerase_lt _ _ _ (by omega), List.getElem?_set,
      if_neg (by omega), if_pos h1]
  · by_cases h2 : j = m
    · subst h2
      rw [getElem?_lerase_lt _ _ _ (by omega), List.getElem?_set, if_pos rfl,
        if_pos (by omega)]
      rw [if_neg (by omega), if_pos rfl]
    · have h3 : m + 1 ≤ j := by omega
      rw [getElem?_lerase_ge _ _ _ h3 (by simp; omega), List.getElem?_set,
        if_neg (by omega), if_neg (by omega), if_neg h2]

/-- Specification of the merge-forward pass `deleteMerge` on a state whose
only possibly-empty chunk sits at index `m` (and then only when `m` is the
head), with a consistent cursor at or before the successor chunk: the result
keeps the byte sequence, the structural invariants, the pool conservation
sum, and every field except the chunk list, cursor chunk position, and pool
counter. -/
theorem deleteMerge_spec (b : Bufclient) (m : Nat)
    (hm : m < b.chunks.length)
    (hcap : ∀ x ∈ b.chunks, x.length ≤ BUFCHUNK_SIZE)
    (hgood : 1 < b.chunks.length → ∀ j x, b.chunks[j]? = some x → j ≠ m → x ≠ [])
    (hemptym : (chunkAt b m).length = 0 → m = 0)
    (hsz : b.size = totalLen b.chunks)
    (hcur : CursorOk b)
    (hcuridx : b.cursorIdx ≤ m + 1)
    (hcache : b.rowoffChunk = some 0 ∨ b.rowoffChunk = none) :
    ∃ r, deleteMerge b m = r ∧
      r.chunks ≠ [] ∧
      (∀ x ∈ r.chunks, x.length ≤ BUFCHUNK_SIZE) ∧
      (1 < r.chunks.length → ∀ x ∈ r.chunks, x ≠ []) ∧
      r.size = totalLen r.chunks ∧ CursorOk r ∧
      r.chunks.length + r.poolFree = b.chunks.length + b.poolFree ∧
      r.chunks.flatten = b.chunks.flatten ∧
      r.size = b.size ∧ r.cursorAbs = b.cursorAbs ∧ r.cursorY = b.cursorY ∧
      r.cursorX = b.cursorX ∧ r.goalX = b.goalX ∧ r.dirty = b.dirty ∧
      r.rowoffChunk = b.rowoffChunk ∧ r.rowoffRel = b.rowoffRel ∧
      r.rowoffAbs = b.rowoffAbs ∧ r.rowoff = b.rowoff := by
  obtain ⟨hidx, hrel, habs⟩ := hcur
  have hne : b.chunks ≠ [] := by
    intro hc
    rw [hc] at hm
    simp at hm
  have hma : b.chunks[m]? = some (chunkAt b m) := by
    unfold chunkAt
    rw [List.getElem?_eq_getElem hm]
    rfl
  match hnext : b.chunks[m + 1]? with
  | none =>
    refine ⟨b, ?_, hne, hcap, ?_, hsz, ⟨hidx, hrel, habs⟩, rfl, rfl, rfl, rfl, rfl,
      rfl, rfl, rfl, rfl, rfl, rfl, rfl⟩
    · unfold deleteMerge
      rw [hma, hnext]
    · intro hlen x hx
      obtain ⟨j, hj⟩ := List.mem_iff_getElem?.mp hx
      by_cases hjm : j = m
      · rw [hjm] at hj
        rw [hma] at hj
        have hxm : x = chunkAt b m := (Option.some.inj hj).symm
        intro hnil
        have h0 : (chunkAt b m).length = 0 := by rw [← hxm, hnil]; rfl
        have hm0 : m = 0 := hemptym h0
        have hlt2 : m + 1 < b.chunks.length := by omega
        rw [List.getElem?_eq_getElem hlt2] at hnext
        exact Option.noConfusion hnext
      · exact hgood hlen j x hj hjm
  | some bn =>
    have hm1 : m + 1 < b.chunks.length := lt_length_of_getElem?_some _ _ _ hnext
    have hbn_ne : bn ≠ [] :=
      hgood (by omega) (m + 1) bn hnext (by omega)
    have hbn_cap : bn.length ≤ BUFCHUNK_SIZE :=
      hcap bn (mem_of_getElem?_some _ _ _ hnext)
    by_cases hfit : (chunkAt b m).length + bn.length ≤ BUFCHUNK_SIZE
    · have hentry := getElem?_merge b.chunks m (chunkAt b m) bn hma hnext
      have hlen5 : (lerase (b.chunks.set m (chunkAt b m ++ bn)) (m + 1)).length =
          b.chunks.length - 1 := by
        rw [length_lerase _ _ (by simp; omega)]
        simp
      have hflat5 : (lerase (b.chunks.set m (chunkAt b m ++ bn)) (m + 1)).flatten =
          b.chunks.flatten := flatten_merge b.chunks m _ _ hma hnext
      have hpre5 : ∀ i, i ≤ m →
          prefixLen (lerase (b.chunks.set m (chunkAt b m ++ bn)) (m + 1)) i =
          prefixLen b.chunks i := by
        intro i hi
        rw [prefixLen_lerase_le _ (m + 1) i (by omega),
          prefixLen_set_le _ m _ i hi]
      have hmergedAt : (lerase (b.chunks.set m (chunkAt b m ++ bn)) (m + 1))[m]? =
          some (chunkAt b m ++ bn) := by
        rw [hentry m, if_neg (by omega), if_pos rfl]
      have hcapmem : ∀ x ∈ lerase (b.chunks.set m (chunkAt b m ++ bn)) (m + 1),
          x.length ≤ BUFCHUNK_SIZE := by
        intro x hx
        obtain ⟨j, hj⟩ := List.mem_iff_getElem?.mp hx
        rw [hentry j] at hj
        by_cases h1 : j < m
        · rw [if_pos h1] at hj
          exact hcap x (mem_of_getElem?_some _ _ _ hj)
        · by_cases h2 : j = m
          · rw [if_neg (by omega), if_pos h2] at hj
            have hxab : x = chunkAt b m ++ bn := (Option.some.inj hj).symm
            rw [hxab]
            simp
            omega
          · rw [if_neg h1, if_neg h2] at hj
            exact hcap x (mem_of_getElem?_some _ _ _ hj)
      have hgoodmem : 1 < (lerase (b.chunks.set m (chunkAt b m ++ bn)) (m + 1)).length →
          ∀ x ∈ lerase (b.chunks.set m (chunkAt b m ++ bn)) (m + 1), x ≠ [] := by
        intro hlen x hx
        obtain ⟨j, hj⟩ := List.mem_iff_getElem?.mp hx
        rw [hentry j] at hj
        rw [hlen5] at hlen
        by_cases h1 : j < m
        · rw [if_pos h1] at hj
          exact hgood (by omega) j x hj (by omega)
        · by_cases h2 : j = m
          · rw [if_neg (by omega), if_pos h2] at hj
            have hxeq : x = chunkAt b m ++ bn := (Option.some.inj hj).symm
            rw [hxeq]
            intro hnil
            rcases List.append_eq_nil.mp hnil with ⟨-, h4⟩
            exact hbn_ne h4
          · rw [if_neg h1, if_neg h2] at hj
            exact hgood (by omega) (j + 1) x hj (by omega)
      have hcaches : adjustPtr b.rowoffChunk (m + 1) = b.rowoffChunk ∧
          b.rowoffChunk ≠ some (m + 1) := by
        rcases hcache with hca | hca
        · rw [hca]
          constructor
          · simp [adjustPtr, adjustIdx]
          · simp
        · rw [hca]
          constructor
          · rfl
          · simp
      by_cases hci : b.cursorIdx = m + 1
      · have heq : deleteMerge b m = { b with
            chunks := lerase (b.chunks.set m (chunkAt b m ++ bn)) (m + 1),
            poolFree := b.poolFree + 1,
            cursorIdx := m, cursorRel := b.cursorRel + (chunkAt b m).length,
            rowoffChunk := adjustPtr b.rowoffChunk (m + 1) } := by
          unfold deleteMerge
          rw [hma, hnext]
          dsimp only
          rw [if_pos hfit, if_pos hci]
          rw [if_neg (by dsimp only; exact hcaches.2)]
        rw [heq]
        rw [hcaches.1]
        refine ⟨_, rfl, ?_, hcapmem, hgoodmem, ?_, ⟨?_, ?_, ?_⟩, ?_, hflat5,
          rfl, rfl, rfl, rfl, rfl, rfl, rfl, rfl, rfl, rfl⟩
        · apply List.ne_nil_of_length_pos
          rw [hlen5]
          omega
        · show b.size = totalLen _
          rw [← length_flatten_eq_totalLen, hflat5, length_flatten_eq_totalLen]
          exact hsz
        · show m < _
          rw [hlen5]
          omega
        · show b.cursorRel + (chunkAt b m).length ≤
            ((lerase (b.chunks.set m (chunkAt b m ++ bn)) (m + 1))[m]?.getD []).length
          rw [hmergedAt]
          dsimp only [Option.getD_some]
          have hrel2 : b.cursorRel ≤ bn.length := by
            unfold chunkAt at hrel
            rw [hci, hnext] at hrel
            simpa using hrel
          simp
          omega
        · show b.cursorAbs = prefixLen _ m + (b.cursorRel + (chunkAt b m).length)
          rw [hpre5 m (by omega)]
          have hstep : prefixLen b.chunks (m + 1) =
              prefixLen b.chunks m + (chunkAt b m).length := by
            rw [prefixLen_succ b.chunks m hm]
            unfold chunkAt
            rfl
          rw [habs, hci, hstep]
          omega
        · show _ + (b.poolFree + 1) = _
          rw [hlen5]
          omega
      · have heq : deleteMerge b m = { b with
            chunks := lerase (b.chunks.set m (chunkAt b m ++ bn)) (m + 1),
            poolFree := b.poolFree + 1,
            cursorIdx := adjustIdx b.cursorIdx (m + 1),
            rowoffChunk := adjustPtr b.rowoffChunk (m + 1) } := by
          unfold deleteMerge
          rw [hma, hnext]
          dsimp only
          rw [if_pos hfit, if_neg hci]
          rw [if_neg (by dsimp only; exact hcaches.2)]
        rw [heq]
        rw [hcaches.1]
        have hcile : b.cursorIdx ≤ m := by omega
        have hadj : adjustIdx b.cursorIdx (m + 1) = b.cursorIdx := by
          unfold adjustIdx
          rw [if_neg (by omega)]
        refine ⟨_, rfl, ?_, hcapmem, hgoodmem, ?_, ⟨?_, ?_, ?_⟩, ?_, hflat5,
          rfl, rfl, rfl, rfl, rfl, rfl, rfl, rfl, rfl, rfl⟩
        · apply List.ne_nil_of_length_pos
          rw [hlen5]
          omega
        · show b.size = totalLen _
          rw [← length_flatten_eq_totalLen, hflat5, length_flatten_eq_totalLen]
          exact hsz
        · show adjustIdx b.cursorIdx (m + 1) < _
          rw [hadj, hlen5]
          omega
        · show b.cursorRel ≤
            ((lerase (b.chunks.set m (chunkAt b m ++ bn))
              (m + 1))[adjustIdx b.cursorIdx (m + 1)]?.getD []).length
          rw [hadj]
          by_cases hcim : b.cursorIdx = m
          · rw [hcim, hmergedAt]
            dsimp only [Option.getD_some]
            have hrel2 : b.cursorRel ≤ (chunkAt b m).length := by
              rw [hcim] at hrel
              exact hrel
            simp
            omega
          · rw [hentry b.cursorIdx, if_pos (by omega)]
            exact hrel
        · show b.cursorAbs = prefixLen _ (adjustIdx b.cursorIdx (m + 1)) + b.cursorRel
          rw [hadj, hpre5 b.cursorIdx (by omega)]
          exact habs
        · show _ + (b.poolFree + 1) = _
          rw [hlen5]
          omega
    · refine ⟨b, ?_, hne, hcap, ?_, hsz, ⟨hidx, hrel, habs⟩, rfl, rfl, rfl, rfl, rfl,
        rfl, rfl, rfl, rfl, rfl, rfl, rfl⟩
      · unfold deleteMerge
        rw [hma, hnext]
        dsimp only
        rw [if_neg hfit]
      · intro hlen x hx
        obtain ⟨j, hj⟩ := List.mem_iff_getElem?.mp hx
        by_cases hjm : j = m
        · rw [hjm] at hj
          rw [hma] at hj
          have hxm : x = chunkAt b m := (Option.some.inj hj).symm
          intro hnil
          have h0 : (chunkAt b m).length = 0 := by rw [← hxm, hnil]; rfl
          omega
        · exact hgood hlen j x hj hjm

/-- Specification of both cleanup passes of `bufclient_delete_char`: on a
state whose only possibly-empty chunk sits at `dIdx`, with a consistent
cursor at or before the chunk after `dIdx`, the cleanup preserves the byte
sequence, the structural invariants, the pool conservation sum, and every
field except the chunk list, cursor chunk position, and pool counter. -/
theorem deleteCleanup_spec (b : Bufclient) (dIdx : Nat)
    (hd : dIdx < b.chunks.length)
    (hcap : ∀ x ∈ b.chunks, x.length ≤ BUFCHUNK_SIZE)
    (hgood : 1 < b.chunks.length → ∀ j x, b.chunks[j]? = some x → j ≠ dIdx → x ≠ [])
    (hsz : b.size = totalLen b.chunks)
    (hcur : CursorOk b)
    (hcuridx : b.cursorIdx ≤ dIdx + 1)
    (habsd : (chunkAt b dIdx).length = 0 → b.cursorAbs = prefixLen b.chunks dIdx)
    (hcache : b.rowoffChunk = some 0 ∨ b.rowoffChunk = none) :
    ∃ r, deleteCleanup b dIdx = r ∧
      r.chunks ≠ [] ∧
      (∀ x ∈ r.chunks, x.length ≤ BUFCHUNK_SIZE) ∧
      (1 < r.chunks.length → ∀ x ∈ r.chunks, x ≠ []) ∧
      r.size = totalLen r.chunks ∧ CursorOk r ∧
      r.chunks.length + r.poolFree = b.chunks.length + b.poolFree ∧
      r.chunks.flatten = b.chunks.flatten ∧
      r.size = b.size ∧ r.cursorAbs = b.cursorAbs ∧ r.cursorY = b.cursorY ∧
      r.cursorX = b.cursorX ∧ r.goalX = b.goalX ∧ r.dirty = b.dirty ∧
      r.rowoffChunk = b.rowoffChunk ∧ r.rowoffRel = b.rowoffRel ∧
      r.rowoffAbs = b.rowoffAbs ∧ r.rowoff = b.rowoff := by
  by_cases hcond : (chunkAt b dIdx).length = 0 ∧ dIdx ≠ 0
  · obtain ⟨hempty, hd0⟩ := hcond
    have hlen2 : 1 < b.chunks.length := by omega
    have hdm : b.chunks[dIdx]? = some (chunkAt b dIdx) := by
      unfold chunkAt
      rw [List.getElem?_eq_getElem hd]
      rfl
    have hflat4 : (lerase b.chunks dIdx).flatten = b.chunks.flatten := by
      apply flatten_lerase_nil b.chunks dIdx hd
      have := List.length_eq_zero.mp hempty
      unfold chunkAt at this
      exact this
    have hcaches : adjustPtr b.rowoffChunk dIdx = b.rowoffChunk := by
      rcases hcache with hca | hca <;> rw [hca]
      · simp [adjustPtr, adjustIdx]
      · rfl
    have heq : deleteCleanup b dIdx = deleteMerge { b with
        chunks := lerase b.chunks dIdx,
        cursorIdx := dIdx - 1,
        cursorRel := (chunkAt b (dIdx - 1)).length,
        rowoffChunk := adjustPtr b.rowoffChunk dIdx,
        poolFree := b.poolFree + 1 } (dIdx - 1) := by
      unfold deleteCleanup
      rw [if_pos ⟨hempty, hd0⟩]
    have hlen4 : (lerase b.chunks dIdx).length = b.chunks.length - 1 :=
      length_lerase b.chunks dIdx hd
    have hentry4 : ∀ j, (lerase b.chunks dIdx)[j]? =
        if j < dIdx then b.chunks[j]? else b.chunks[j + 1]? := by
      intro j
      by_cases hj : j < dIdx
      · rw [getElem?_lerase_lt _ _ _ hj, if_pos hj]
      · rw [getElem?_lerase_ge _ _ _ (by omega) (by omega), if_neg hj]
    have hchm : chunkAt b (dIdx - 1) ≠ [] := by
      have hsome : b.chunks[dIdx - 1]? = some (chunkAt b (dIdx - 1)) := by
        unfold chunkAt
        rw [List.getElem?_eq_getElem (by omega : dIdx - 1 < b.chunks.length)]
        rfl
      exact hgood hlen2 (dIdx - 1) _ hsome (by omega)
    obtain ⟨r, hr, hrs⟩ := deleteMerge_spec { b with
        chunks := lerase b.chunks dIdx,
        cursorIdx := dIdx - 1,
        cursorRel := (chunkAt b (dIdx - 1)).length,
        rowoffChunk := adjustPtr b.rowoffChunk dIdx,
        poolFree := b.poolFree + 1 } (dIdx - 1)
      (by dsimp only; rw [hlen4]; omega)
      (by
        intro x hx
        dsimp only at hx
        exact hcap x (mem_lerase _ _ _ hx))
      (by
        intro hlen j x hj hjm
        dsimp only at hj hlen
        rw [hentry4 j] at hj
        rw [hlen4] at hlen
        by_cases h1 : j < dIdx
        · rw [if_pos h1] at hj
          exact hgood (by omega) j x hj (by omega)
        · rw [if_neg h1] at hj
          exact hgood (by omega) (j + 1) x hj (by omega))
      (by
        intro h0
        unfold chunkAt at h0
        dsimp only at h0
        rw [hentry4 (dIdx - 1), if_pos (by omega)] at h0
        exfalso
        apply hchm
        apply List.length_eq_zero.mp
        unfold chunkAt
        exact h0)
      (by
        dsimp only
        rw [← length_flatten_eq_totalLen, hflat4, length_flatten_eq_totalLen]
        exact hsz)
      (by
        refine ⟨?_, ?_, ?_⟩
        · dsimp only
          rw [hlen4]
          omega
        · show (chunkAt b (dIdx - 1)).length ≤ _
          unfold chunkAt
          dsimp only
          rw [hentry4 (dIdx - 1), if_pos (by omega)]
        · show b.cursorAbs = _
          dsimp only
          rw [prefixLen_lerase_le b.chunks dIdx (dIdx - 1) (by omega)]
          rw [habsd hempty]
          have hstep : prefixLen b.chunks (dIdx - 1 + 1) =
              prefixLen b.chunks (dIdx - 1) + (b.chunks[dIdx - 1]?.getD []).length :=
            prefixLen_succ b.chunks (dIdx - 1) (by omega)
          have hd1 : dIdx - 1 + 1 = dIdx := by omega
          rw [hd1] at hstep
          rw [hstep]
          rfl)
      (by dsimp only; omega)
      (by
        dsimp only
        rw [hcaches]
        exact hcache)
    refine ⟨r, by rw [heq, hr], ?_⟩
    obtain ⟨h1, h2, h3, h4, h5, h6, h7, h8, h9, h10, h11, h12, h13, h14, h15, h16, h17⟩ := hrs
    dsimp only at h6 h7 h8 h9 h10 h11 h12 h13 h14 h15 h16 h17
    rw [hcaches] at h14
    refine ⟨h1, h2, h3, h4, h5, ?_, ?_, ?_, h9, h10, h11, h12, h13, h14, h15, h16, h17⟩
    · rw [h6, hlen4]
      omega
    · rw [h7, hflat4]
    · rw [h8]
  · have heq : deleteCleanup b dIdx = deleteMerge b dIdx := by
      unfold deleteCleanup
      rw [if_neg hcond]
    obtain ⟨r, hr, hrs⟩ := deleteMerge_spec b dIdx hd hcap
      (fun hl j x hj hjm => hgood hl j x hj hjm)
      (by
        intro h0
        by_contra hne0
        exact hcond ⟨h0, hne0⟩)
      hsz hcur hcuridx hcache
    exact ⟨r, by rw [heq, hr], hrs⟩

lemma chunkAt_set_self (l : List Chunk) (i : Nat) (a : Chunk) (h : i < l.length) :
    (l.set i a)[i]?.getD [] = a := by
  rw [List.getElem?_set_self', List.getElem?_eq_getElem h]
  rfl

/-- Specification of `bufclient_delete_char` on a well-formed state: it
always succeeds, the byte before the cursor is erased from the flattened
sequence (no-op at offset 0), and well-formedness is preserved. -/
theorem delete_spec (s : Bufclient) (h : WF s) :
    ∃ s', bufclient_delete_char s = (RES.ok, s') ∧ WF s' ∧
      s'.chunks.flatten = (if s.cursorAbs = 0 then s.chunks.flatten
        else lerase s.chunks.flatten (s.cursorAbs - 1)) ∧
      s'.size = (if s.cursorAbs = 0 then s.size else s.size - 1) ∧
      s'.cursorAbs = s.cursorAbs - 1 := by
  obtain ⟨⟨hne, hcap, hemp, hsz, ⟨hidx, hrel, habs⟩, hpool⟩, hc0, hc1, hc2, hc3⟩ := h
  by_cases habs0 : s.cursorAbs = 0
  · refine ⟨s, ?_, ⟨⟨hne, hcap, hemp, hsz, ⟨hidx, hrel, habs⟩, hpool⟩, hc0, hc1, hc2, hc3⟩,
      ?_, ?_, ?_⟩
    · unfold bufclient_delete_char
      rw [if_pos habs0]
    · rw [if_pos habs0]
    · rw [if_pos habs0]
    · omega
  · have habsle : s.cursorAbs ≤ s.size := by
      have h1 := prefixLen_le_totalLen s.chunks (s.cursorIdx + 1)
      have h2 := prefixLen_succ s.chunks s.cursorIdx hidx
      unfold chunkAt at hrel
      omega
    obtain ⟨dIdx, dRel, hfp, hdlt, hdle, hdsum, hstrict⟩ :=
      find_pos_spec s (s.cursorAbs - 1) hne hsz (by omega)
    have hdRel : dRel < (s.chunks[dIdx]?.getD []).length := hstrict (by omega)
    have hgd : chunkAt s dIdx = s.chunks[dIdx]?.getD [] := rfl
    have hnocache : ¬(s.rowoffChunk.isSome = true ∧ s.cursorAbs - 1 < s.rowoffAbs) := by
      rw [hc2]
      intro hcon
      exact Nat.not_lt_zero _ hcon.2
    have hflat2 : (s.chunks.set dIdx (lerase (chunkAt s dIdx) dRel)).flatten =
        lerase s.chunks.flatten (s.cursorAbs - 1) := by
      rw [hgd, ← hdsum]
      exact flatten_set_lerase s.chunks dIdx dRel hdlt hdRel
    have hfllen : s.chunks.flatten.length = s.size := by
      rw [length_flatten_eq_totalLen, hsz]
    have htot2 : totalLen (s.chunks.set dIdx (lerase (chunkAt s dIdx) dRel)) = s.size - 1 := by
      rw [← length_flatten_eq_totalLen, hflat2,
        length_lerase _ _ (by rw [hfllen]; omega), hfllen]
    obtain ⟨i3, r3, y3, x3, hucc, hi3, hr3, hsum3⟩ := ucc_spec
      { s with chunks := s.chunks.set dIdx (lerase (chunkAt s dIdx) dRel), size := s.size - 1, dirty := true, cursorAbs := s.cursorAbs - 1, cursorIdx := dIdx, cursorRel := dRel }
      (by
        dsimp only
        apply List.ne_nil_of_length_pos
        have := List.length_pos.mpr hne
        simpa using this)
      (by dsimp only; rw [htot2])
      (by dsimp only; omega)
      (by dsimp only; exact Or.inr ⟨hc0, hc1, hc2⟩)
    dsimp only at hucc hi3 hr3 hsum3
    obtain ⟨r, hclean, hr1, hr2, hr3g, hr4, hr5, hr6, hr7, hr8, hr9, hr10, hr11, hr12,
      hr13, hr14, hr15, hr16, hr17⟩ := deleteCleanup_spec
      { s with chunks := s.chunks.set dIdx (lerase (chunkAt s dIdx) dRel), size := s.size - 1, dirty := true, cursorAbs := s.cursorAbs - 1, cursorIdx := i3, cursorRel := r3, cursorY := y3, cursorX := x3, goalX := x3 } dIdx
      (by dsimp only; simpa using hdlt)
      (by
        intro x hx
        dsimp only at hx
        rcases List.mem_or_eq_of_mem_set hx with hmem | hxeq
        · exact hcap x hmem
        · obtain ⟨ch, hch⟩ : ∃ ch, s.chunks[dIdx]? = some ch :=
            ⟨_, List.getElem?_eq_getElem hdlt⟩
          have hle : (s.chunks[dIdx]?.getD []).length ≤ BUFCHUNK_SIZE := by
            rw [hch]
            exact hcap _ (mem_of_getElem?_some _ _ _ hch)
          rw [hxeq, hgd, length_lerase _ _ hdRel]
          omega)
      (by
        intro hlen j x hj hjd
        dsimp only at hj hlen
        rw [List.getElem?_set_ne (fun hh => hjd hh.symm)] at hj
        exact hemp (by simpa using hlen) x (mem_of_getElem?_some _ _ _ hj))
      (by dsimp only; rw [htot2])
      (by
        refine ⟨by dsimp only; exact hi3, ?_, by dsimp only; exact hsum3.symm⟩
        show r3 ≤ _
        unfold chunkAt
        dsimp only
        exact hr3)
      (by
        show i3 ≤ dIdx + 1
        by_contra hgt
        push_neg at hgt
        have hilen : i3 < s.chunks.length := by simpa using hi3
        have hd1lt : dIdx + 1 < s.chunks.length := by omega
        have hmono := prefixLen_mono
          (s.chunks.set dIdx (lerase (chunkAt s dIdx) dRel)) (dIdx + 1 + 1) i3 (by omega)
        have hple : prefixLen (s.chunks.set dIdx (lerase (chunkAt s dIdx) dRel)) i3 ≤
            s.cursorAbs - 1 := by omega
        have hpre_d : prefixLen (s.chunks.set dIdx (lerase (chunkAt s dIdx) dRel)) dIdx =
            prefixLen s.chunks dIdx := prefixLen_set_le _ _ _ _ (by omega)
        have hstep1 := prefixLen_succ (s.chunks.set dIdx (lerase (chunkAt s dIdx) dRel))
          dIdx (by simpa using hdlt)
        have hstep2 := prefixLen_succ (s.chunks.set dIdx (lerase (chunkAt s dIdx) dRel))
          (dIdx + 1) (by simpa using hd1lt)
        have hat_d : (s.chunks.set dIdx (lerase (chunkAt s dIdx) dRel))[dIdx]?.getD [] =
            lerase (chunkAt s dIdx) dRel := by
          rw [List.getElem?_set_self', List.getElem?_eq_getElem hdlt]
          rfl
        have hat_d1 : (s.chunks.set dIdx (lerase (chunkAt s dIdx) dRel))[dIdx + 1]? =
            s.chunks[dIdx + 1]? := List.getElem?_set_ne (by omega)
        have hlen_d : (lerase (chunkAt s dIdx) dRel).length =
            (s.chunks[dIdx]?.getD []).length - 1 := by
          rw [hgd]
          exact length_lerase _ _ hdRel
        have hne_d1 : s.chunks[dIdx + 1]?.getD [] ≠ [] := by
          apply hemp (by omega)
          apply mem_of_getElem?_some s.chunks (dIdx + 1)
          rw [List.getElem?_eq_getElem hd1lt]
          rfl
        have hlen_d1 : 0 < (s.chunks[dIdx + 1]?.getD []).length :=
          List.length_pos.mpr hne_d1
        rw [hat_d] at hstep1
        rw [hat_d1] at hstep2
        omega)
      (by
        intro h0
        unfold chunkAt at h0
        dsimp only at h0
        rw [chunkAt_set_self _ _ _ hdlt] at h0
        have hlen_d : (lerase (s.chunks[dIdx]?.getD []) dRel).length =
            (s.chunks[dIdx]?.getD []).length - 1 := length_lerase _ _ hdRel
        dsimp only
        show s.cursorAbs - 1 = _
        rw [prefixLen_set_le _ _ _ _ (by omega)]
        omega)
      (by dsimp only; exact Or.inl hc0)
    refine ⟨r, ?_, ?_, ?_, ?_, ?_⟩
    · unfold bufclient_delete_char
      rw [if_neg habs0]
      dsimp only
      rw [hfp]
      dsimp only
      rw [if_neg hnocache]
      rw [hucc]
      dsimp only
      rw [hclean]
    · refine ⟨⟨hr1, hr2, hr3g, hr4, hr5, ?_⟩, ?_, ?_, ?_, ?_⟩
      · dsimp only at hr6
        rw [hr6]
        simpa using hpool
      · dsimp only at hr14
        rw [hr14]
        exact hc0
      · dsimp only at hr15
        rw [hr15]
        exact hc1
      · dsimp only at hr16
        rw [hr16]
        exact hc2
      · dsimp only at hr17
        rw [hr17]
        exact hc3
    · dsimp only at hr7
      rw [if_neg habs0, hr7]
      exact hflat2
    · dsimp only at hr8
      rw [if_neg habs0, hr8]
    · dsimp only at hr9
      rw [hr9]

/-! ## Cursor-move specifications -/

theorem prefixLen_of_ge (l : List Chunk) (i : Nat) (h : l.length ≤ i) :
    prefixLen l i = totalLen l := by
  unfold prefixLen totalLen
  rw [List.take_of_length_le h]

theorem prefixLen_add_totalLen_drop (l : List Chunk) (i : Nat) :
    prefixLen l i + totalLen (l.drop i) = totalLen l := by
  unfold prefixLen totalLen
  rw [← List.sum_append, ← List.map_append, List.take_append_drop]

theorem find_pos_congr (a b : Bufclient) (h1 : a.chunks = b.chunks) (h2 : a.size = b.size) :
    bufclient_find_pos a = bufclient_find_pos b := by
  funext t
  unfold bufclient_find_pos
  rw [h1, h2]

theorem cursorAbs_le_size (s : Bufclient) (h : StructWF s) : s.cursorAbs ≤ s.size := by
  obtain ⟨hne, -, -, hsz, ⟨hidx, hrel, habs⟩, -⟩ := h
  have h1 := prefixLen_le_totalLen s.chunks (s.cursorIdx + 1)
  have h2 := prefixLen_succ s.chunks s.cursorIdx hidx
  unfold chunkAt at hrel
  omega

/-- The goal-column byte scan advances the absolute index by at most the
number of bytes scanned. -/
theorem seekInner_le (goal : Nat) : ∀ (data : List Nat) (x t : Nat),
    (seekInner goal data x t).2.2 ≤ t + data.length := by
  intro data
  induction data with
  | nil => intro x t; simp [seekInner]
  | cons b rest ih =>
    intro x t
    simp only [seekInner]
    by_cases hb : b = 10
    · rw [if_pos hb]; simp
    · rw [if_neg hb]
      by_cases h1 : x + (if b = 9 then TAB_STOP - x % TAB_STOP
          else if b < 32 ∨ b = 127 then 2 else 1) > goal
      · rw [if_pos h1]; simp
      · rw [if_neg h1]
        by_cases h2 : x + (if b = 9 then TAB_STOP - x % TAB_STOP
            else if b < 32 ∨ b = 127 then 2 else 1) = goal
        · rw [if_pos h2]; simp
        · rw [if_neg h2]
          have := ih (x + (if b = 9 then TAB_STOP - x % TAB_STOP
            else if b < 32 ∨ b = 127 then 2 else 1)) (t + 1)
          simp only [List.length_cons]
          omega

theorem seekOuter_le (goal : Nat) : ∀ (l : List Chunk) (x t : Nat),
    seekOuter goal l x t ≤ t + totalLen l := by
  intro l
  induction l with
  | nil => intro x t; simp [seekOuter, totalLen]
  | cons c rest ih =>
    intro x t
    simp only [seekOuter]
    rcases hsi : seekInner goal c x t with ⟨d, x2, t2⟩
    have hb := seekInner_le goal c x t
    rw [hsi] at hb
    dsimp only at hb
    rw [totalLen_cons]
    cases d
    · dsimp only
      have := ih x2 t2
      omega
    · dsimp only
      omega

/-- The goal-column seek started at a consistent buffer position never
reports a target beyond the total number of bytes. -/
theorem seekFrom_le (buf : Bufclient) (goal idx rel sabs : Nat)
    (hla : sabs = prefixLen buf.chunks idx + rel)
    (hrel : rel ≤ (chunkAt buf idx).length) :
    seekFrom buf goal idx rel sabs ≤ totalLen buf.chunks := by
  unfold seekFrom
  rcases hd : buf.chunks.drop idx with _ | ⟨c, rest⟩
  · dsimp only
    have hlen : buf.chunks.length ≤ idx := by
      have := congrArg List.length hd
      simp at this
      omega
    have hchunk : chunkAt buf idx = [] := by
      unfold chunkAt
      rw [List.getElem?_eq_none hlen]
      rfl
    have hpre := prefixLen_of_ge buf.chunks idx hlen
    rw [hchunk] at hrel
    simp at hrel
    omega
  · dsimp only
    have hsome : buf.chunks[idx]? = some c := by
      have h0 : (buf.chunks.drop idx)[0]? = some c := by rw [hd]; simp
      rw [List.getElem?_drop] at h0
      simpa using h0
    have hclen : chunkAt buf idx = c := by
      unfold chunkAt
      rw [hsome]
      rfl
    rcases hsi : seekInner goal (c.drop rel) 0 sabs with ⟨d, x2, t2⟩
    have hb := seekInner_le goal (c.drop rel) 0 sabs
    rw [hsi] at hb
    dsimp only at hb
    have hdt := prefixLen_add_totalLen_drop buf.chunks idx
    rw [hd, totalLen_cons] at hdt
    have hdroplen : (c.drop rel).length = c.length - rel := by simp
    rw [hclen] at hrel
    have hso := seekOuter_le goal rest x2 t2
    cases d
    · dsimp only
      omega
    · dsimp only
      omega

/-- A newline hit reported by the inner line-start scan lies within the
scanned bytes. -/
theorem flsInner_some_lt (ty : Nat) : ∀ (data : List Nat) (rel y r y2 : Nat),
    flsInner ty data rel y = (some r, y2) → rel ≤ r ∧ r < rel + data.length := by
  intro data
  induction data with
  | nil => intro rel y r y2 h; simp [flsInner] at h
  | cons b rest ih =>
    intro rel y r y2 h
    simp only [flsInner] at h
    by_cases hb : b = 10
    · rw [if_pos hb] at h
      by_cases hy : y + 1 = ty
      · rw [if_pos hy] at h
        have h1 := Option.some.inj (congrArg Prod.fst h)
        simp only [List.length_cons]
        omega
      · rw [if_neg hy] at h
        have := ih (rel + 1) (y + 1) r y2 h
        simp only [List.length_cons]
        omega
    · rw [if_neg hb] at h
      have := ih (rel + 1) y r y2 h
      simp only [List.length_cons]
      omega

/-- A successful outer line-start walk reports a position consistent with
the chunk list: the absolute index is the prefix sum plus the relative
index, which is within its chunk. -/
theorem flsOuter_ok_spec (buf : Bufclient) (ty : Nat) :
    ∀ (l : List Chunk) (idx y li lr la : Nat), l = buf.chunks.drop idx →
      flsOuter buf ty l idx (prefixLen buf.chunks idx) y = (RES.ok, li, lr, la) →
      la = prefixLen buf.chunks li + lr ∧ lr ≤ (chunkAt buf li).length := by
  intro l
  induction l with
  | nil =>
    intro idx y li lr la hdrop h
    simp only [flsOuter] at h
    by_cases hy : y < ty
    · rw [if_pos hy] at h
      simp at h
    · rw [if_neg hy] at h
      simp at h
  | cons c rest ih =>
    intro idx y li lr la hdrop h
    have hsome : buf.chunks[idx]? = some c := by
      have h0 : (buf.chunks.drop idx)[0]? = some c := by rw [← hdrop]; simp
      rw [List.getElem?_drop] at h0
      simpa using h0
    have hidxlt : idx < buf.chunks.length := lt_length_of_getElem?_some _ _ _ hsome
    have hrest : rest = buf.chunks.drop (idx + 1) := by
      have h2 : buf.chunks.drop (idx + 1) = (buf.chunks.drop idx).tail :=
        (List.tail_drop _ _).symm
      rw [h2, ← hdrop]
      rfl
    have hpsucc : prefixLen buf.chunks (idx + 1) = prefixLen buf.chunks idx + c.length := by
      rw [prefixLen_succ _ _ hidxlt, hsome]
      rfl
    have hchunk : chunkAt buf idx = c := by
      unfold chunkAt
      rw [hsome]
      rfl
    simp only [flsOuter] at h
    rcases hfi : flsInner ty c 0 y with ⟨orel, y2⟩
    rw [hfi] at h
    cases orel with
    | none =>
      dsimp only at h
      rw [← hpsucc] at h
      exact ih (idx + 1) y2 li lr la hrest h
    | some rel =>
      dsimp only at h
      obtain ⟨hge, hlt⟩ := flsInner_some_lt ty c 0 y rel y2 hfi
      simp only [Nat.zero_add] at hlt
      by_cases h1 : rel + 1 < c.length
      · rw [if_pos h1] at h
        injection h with ha hb
        injection hb with hb1 hb2
        injection hb2 with hc1 hc2
        refine ⟨?_, ?_⟩
        · rw [← hc2, ← hb1, ← hc1]
          omega
        · rw [← hb1, ← hc1, hchunk]
          omega
      · rw [if_neg h1] at h
        by_cases h2 : rest ≠ []
        · rw [if_pos h2] at h
          injection h with ha hb
          injection hb with hb1 hb2
          injection hb2 with hc1 hc2
          refine ⟨?_, ?_⟩
          · rw [← hc2, ← hb1, ← hc1, hpsucc]
            omega
          · rw [← hc1]
            exact Nat.zero_le _
        · rw [if_neg h2] at h
          injection h with ha hb
          injection hb with hb1 hb2
          injection hb2 with hc1 hc2
          refine ⟨?_, ?_⟩
          · rw [← hc2, ← hb1, ← hc1]
            omega
          · rw [← hb1, ← hc1, hchunk]
      
/-- A successful `bufclient_find_line_start` reports a consistent position. -/
theorem fls_ok_spec (s : Bufclient) (ty li lr la : Nat)
    (h : bufclient_find_line_start s ty = (RES.ok, li, lr, la)) :
    la = prefixLen s.chunks li + lr ∧ lr ≤ (chunkAt s li).length := by
  unfold bufclient_find_line_start at h
  by_cases h0 : ty = 0
  · rw [if_pos h0] at h
    injection h with ha hb
    injection hb with hb1 hb2
    injection hb2 with hc1 hc2
    refine ⟨?_, ?_⟩
    · rw [← hc2, ← hb1, ← hc1]
      rfl
    · rw [← hc1]
      exact Nat.zero_le _
  · rw [if_neg h0] at h
    exact flsOuter_ok_spec s ty s.chunks 0 0 li lr la (by simp) h

/-- `bufclient_move_cursor_to` preserves well-formedness for every target. -/
theorem moveTo_WF (s : Bufclient) (target : Int) (h : WF s) :
    WF (bufclient_move_cursor_to s target) := by
  obtain ⟨⟨hne, hcap, hemp, hsz, hcur, hpool⟩, hc0, hc1, hc2, hc3⟩ := h
  have hmain : ∀ tv : Int, 0 ≤ tv → tv ≤ (s.size : Int) →
      WF (match bufclient_find_pos s tv with
          | some (idx, rel) =>
            let b2 := (bufclient_update_cursor_coords
              { s with cursorIdx := idx, cursorRel := rel, cursorAbs := tv.toNat }).2
            { b2 with goalX := b2.cursorX }
          | none => s) := by
    intro tv h0 h1
    have ht : ((tv.toNat : Nat) : Int) = tv := by omega
    obtain ⟨i, r, hfp, hilt, hrle, hsum, -⟩ := find_pos_spec s tv.toNat hne hsz (by omega)
    rw [ht] at hfp
    rw [hfp]
    dsimp only
    obtain ⟨i3, r3, y3, x3, huc, hi3, hr3, hsum3⟩ := ucc_spec
      { s with cursorIdx := i, cursorRel := r, cursorAbs := tv.toNat }
      hne hsz (by dsimp only; omega) (Or.inr ⟨hc0, hc1, hc2⟩)
    rw [huc]
    dsimp only
    refine ⟨⟨hne, hcap, hemp, hsz, ⟨hi3, ?_, ?_⟩, hpool⟩, hc0, hc1, hc2, hc3⟩
    · show r3 ≤ _
      unfold chunkAt
      exact hr3
    · exact hsum3.symm
  unfold bufclient_move_cursor_to
  dsimp only
  by_cases hneg : target < 0
  · rw [if_pos hneg]
    exact hmain 0 (by omega) (by omega)
  · rw [if_neg hneg]
    by_cases hbig : target > (s.size : Int)
    · rw [if_pos hbig]
      exact hmain (s.size : Int) (by omega) (by omega)
    · rw [if_neg hbig]
      exact hmain target (by omega) (by omega)

/-- The shared tail of `bufclient_move_cursor_relative` preserves
well-formedness whenever the requested offset is within the buffer (the
coordinate update recomputes the chunk position from scratch, so even an
untrusted efficient-update pair is repaired). -/
theorem moveRelFinish_WF (s : Bufclient) (t : Nat) (eff : Option (Nat × Nat)) (hor : Bool)
    (h : WF s) (hle : t ≤ s.size) : WF (moveRelFinish s t eff hor) := by
  obtain ⟨⟨hne, hcap, hemp, hsz, hcur, hpool⟩, hc0, hc1, hc2, hc3⟩ := h
  unfold moveRelFinish
  by_cases ht : t = s.cursorAbs
  · rw [if_pos ht]
    exact ⟨⟨hne, hcap, hemp, hsz, hcur, hpool⟩, hc0, hc1, hc2, hc3⟩
  · rw [if_neg ht]
    dsimp only
    have hmain : ∀ i r : Nat,
        WF (let b4 := (bufclient_update_cursor_coords
              { s with cursorAbs := t, cursorIdx := i, cursorRel := r }).2
            if hor then { b4 with goalX := b4.cursorX } else b4) := by
      intro i r
      obtain ⟨i3, r3, y3, x3, huc, hi3, hr3, hsum3⟩ := ucc_spec
        { s with cursorAbs := t, cursorIdx := i, cursorRel := r }
        hne hsz (by dsimp only; exact hle) (Or.inr ⟨hc0, hc1, hc2⟩)
      dsimp only
      rw [huc]
      dsimp only
      cases hor
      · refine ⟨⟨hne, hcap, hemp, hsz, ⟨hi3, ?_, ?_⟩, hpool⟩, hc0, hc1, hc2, hc3⟩
        · show r3 ≤ _
          unfold chunkAt
          exact hr3
        · exact hsum3.symm
      · refine ⟨⟨hne, hcap, hemp, hsz, ⟨hi3, ?_, ?_⟩, hpool⟩, hc0, hc1, hc2, hc3⟩
        · show r3 ≤ _
          unfold chunkAt
          exact hr3
        · exact hsum3.symm
    cases eff with
    | some p =>
      obtain ⟨i, r⟩ := p
      dsimp only
      exact hmain i r
    | none =>
      dsimp only
      obtain ⟨i, r, hfp, -, -, -, -⟩ := find_pos_spec s t hne hsz hle
      rw [find_pos_congr { s with cursorAbs := t } s rfl rfl, hfp]
      dsimp only
      exact hmain i r

/-- `bufclient_move_cursor_relative` preserves well-formedness. -/
theorem moveRel_WF (s : Bufclient) (k : Key) (h : WF s) :
    WF (bufclient_move_cursor_relative s k) := by
  have habsle : s.cursorAbs ≤ s.size := cursorAbs_le_size s h.1
  have hsz : s.size = totalLen s.chunks := h.1.2.2.2.1
  cases k with
  | left =>
    unfold bufclient_move_cursor_relative
    by_cases h0 : s.cursorAbs > 0
    · rw [if_pos h0]
      dsimp only
      exact moveRelFinish_WF s (s.cursorAbs - 1) _ true h (by omega)
    · rw [if_neg h0]
      exact h
  | right =>
    unfold bufclient_move_cursor_relative
    by_cases h0 : s.cursorAbs < s.size
    · rw [if_pos h0]
      dsimp only
      exact moveRelFinish_WF s (s.cursorAbs + 1) _ true h (by omega)
    · rw [if_neg h0]
      exact h
  | up =>
    unfold bufclient_move_cursor_relative
    by_cases hy : s.cursorY = 0
    · rw [if_pos hy]
      exact h
    · rw [if_neg hy]
      rcases hq : bufclient_find_line_start s (s.cursorY - 1) with ⟨res, li, lr, la⟩
      cases res
      · dsimp only
        obtain ⟨hla, hlr⟩ := fls_ok_spec s _ li lr la hq
        exact moveRelFinish_WF s _ none false h
          (by rw [hsz]; exact seekFrom_le s s.goalX li lr la hla hlr)
      · exact h
  | down =>
    unfold bufclient_move_cursor_relative
    rcases hq : bufclient_find_line_start s (s.cursorY + 1) with ⟨res, li, lr, la⟩
    cases res
    · dsimp only
      by_cases hgt : seekFrom s s.goalX li lr la > s.size
      · rw [if_pos hgt]
        exact moveRelFinish_WF s s.size _ false h (le_refl _)
      · rw [if_neg hgt]
        exact moveRelFinish_WF s _ none false h (by omega)
    · exact h

/-! ## Reachable states are well-formed -/

/-- Every buffer operation preserves well-formedness. -/
theorem applyOp_WF (s : Bufclient) (op : Op) (h : WF s) : WF (applyOp s op) := by
  cases op with
  | ins c =>
    rcases insert_spec s c h with ⟨-, -, herr⟩ | ⟨s', hok, hwf, -⟩
    · show WF (bufclient_insert_char s c).2
      rw [herr]
      exact h
    · show WF (bufclient_insert_char s c).2
      rw [hok]
      exact hwf
  | del =>
    obtain ⟨s', hok, hwf, -⟩ := delete_spec s h
    show WF (bufclient_delete_char s).2
    rw [hok]
    exact hwf
  | moveTo t => exact moveTo_WF s t h
  | moveRel k => exact moveRel_WF s k h

/-- Every reachable buffer state is well-formed. -/
theorem reachable_WF (s : Bufclient) (h : Reachable s) : WF s := by
  induction h with
  | init => decide
  | step s op hr ih => exact applyOp_WF s op ih

/-! ## Claim C1: locate round-trip and failure conditions -/

theorem totalLen_le_of_cap (l : List Chunk) (k : Nat) (h : ∀ c ∈ l, c.length ≤ k) :
    totalLen l ≤ l.length * k := by
  induction l with
  | nil => simp [totalLen]
  | cons c rest ih =>
    rw [totalLen_cons]
    have h1 := h c (List.mem_cons_self c rest)
    have h2 := ih (fun x hx => h x (List.mem_cons_of_mem c hx))
    simp only [List.length_cons]
    calc c.length + totalLen rest ≤ k + rest.length * k := by omega
    _ = (rest.length + 1) * k := by ring

/-- C1.  On a well-formed buffer, `bufclient_find_pos` succeeds on every
offset in `[0, size]` and the returned (chunk index, relative offset) pair
reconstructs the offset as the sum of the preceding chunks' sizes plus the
relative offset; it fails exactly on `target < 0` or `target > size`; and at
exactly `target = size` it returns the last chunk with that chunk's used
length. -/
theorem find_pos_roundtrip_claim (s : Bufclient) (h : WF s) :
    (∀ a : Nat, a ≤ s.size →
      ∃ i r, bufclient_find_pos s (a : Int) = some (i, r) ∧
        prefixLen s.chunks i + r = a) ∧
    (∀ t : Int, bufclient_find_pos s t = none ↔ t < 0 ∨ t > (s.size : Int)) ∧
    bufclient_find_pos s ((s.size : Nat) : Int) =
      some (s.chunks.length - 1, (s.chunks.getLast?.getD []).length) := by
  obtain ⟨⟨hne, -, -, hsz, -, -⟩, -⟩ := h
  refine ⟨?_, ?_, ?_⟩
  · intro a ha
    obtain ⟨i, r, hfp, -, -, hsum, -⟩ := find_pos_spec s a hne hsz ha
    exact ⟨i, r, hfp, hsum⟩
  · intro t
    exact find_pos_none_iff s t hne hsz
  · unfold bufclient_find_pos
    rw [if_neg (by omega), if_pos rfl]

theorem find_pos_roundtrip_claim_witness :
    bufclient_find_pos initBuf ((initBuf.size : Nat) : Int) =
      some (initBuf.chunks.length - 1, (initBuf.chunks.getLast?.getD []).length) :=
  (find_pos_roundtrip_claim initBuf (by decide)).2.2

/-! ## Claim C2: chunk-size bounds on reachable states -/

/-- C2.  On every state reachable from the initial buffer by inserts,
deletes and cursor moves, every live chunk holds at most `BUFCHUNK_SIZE`
bytes, and an empty chunk occurs only as the buffer's sole chunk. -/
theorem chunk_structure_claim (s : Bufclient) (h : Reachable s) :
    (∀ c ∈ s.chunks, c.length ≤ BUFCHUNK_SIZE) ∧
    (∀ c ∈ s.chunks, c = [] → s.chunks.length = 1) := by
  obtain ⟨⟨hne, hcap, hemp, -, -, -⟩, -⟩ := reachable_WF s h
  refine ⟨hcap, ?_⟩
  intro c hc hceq
  by_contra hlen
  have h1 : 1 < s.chunks.length := by
    have := List.length_pos.mpr hne
    omega
  exact hemp h1 c hc hceq

theorem chunk_structure_claim_witness :
    (∀ c ∈ initBuf.chunks, c.length ≤ BUFCHUNK_SIZE) ∧
    (∀ c ∈ initBuf.chunks, c = [] → initBuf.chunks.length = 1) :=
  chunk_structure_claim initBuf Reachable.init

/-! ## Claim C4: insert then delete restores the byte sequence -/

/-- C4.  From any reachable state, a successful `insert_char` followed by
`delete_char` at the resulting cursor position succeeds and restores the
buffer's byte sequence and total size to their pre-insert values. -/
theorem insert_delete_roundtrip_claim (s : Bufclient) (c : Nat) (s' : Bufclient)
    (h : Reachable s) (hok : bufclient_insert_char s c = (RES.ok, s')) :
    (bufclient_delete_char s').1 = RES.ok ∧
    (bufclient_delete_char s').2.chunks.flatten = s.chunks.flatten ∧
    (bufclient_delete_char s').2.size = s.size := by
  have hwf := reachable_WF s h
  have habsle : s.cursorAbs ≤ s.size := cursorAbs_le_size s hwf.1
  have hszs : s.size = totalLen s.chunks := hwf.1.2.2.2.1
  rcases insert_spec s c hwf with ⟨-, -, herr⟩ |
    ⟨s2, hok2, hwf2, hfl, hsize, habs, -, -, -, -, -, -⟩
  · rw [herr] at hok
    exact absurd (congrArg Prod.fst hok) (by simp)
  · rw [hok2] at hok
    have hs2 : s2 = s' := congrArg Prod.snd hok
    subst hs2
    obtain ⟨s3, hdel, -, hfl3, hsz3, -⟩ := delete_spec s2 hwf2
    rw [hdel]
    dsimp only
    refine ⟨rfl, ?_, ?_⟩
    · rw [hfl3, if_neg (by omega), hfl, habs]
      simp only [Nat.add_sub_cancel]
      exact lerase_linsert s.chunks.flatten s.cursorAbs c
        (by rw [length_flatten_eq_totalLen]; omega)
    · rw [hsz3, if_neg (by omega), hsize]
      omega

/-- The state produced by inserting the byte 97 into the initial buffer. -/
def W4 : Bufclient := {
  chunks := [[97]], cursorIdx := 0, cursorRel := 1, cursorAbs := 1,
  cursorY := 0, cursorX := 1, goalX := 1, size := 1, dirty := true,
  rowoff := 0, rowoffChunk := some 0, rowoffRel := 0, rowoffAbs := 0,
  poolFree := BUFCHUNK_COUNT - 1 }

theorem insert_delete_roundtrip_claim_witness :
    (bufclient_delete_char W4).1 = RES.ok ∧
    (bufclient_delete_char W4).2.chunks.flatten = initBuf.chunks.flatten ∧
    (bufclient_delete_char W4).2.size = initBuf.size :=
  insert_delete_roundtrip_claim initBuf 97 W4 Reachable.init (by decide)

/-! ## Claim C5: pool exhaustion -/

/-- C5.  On every reachable state, `insert_char` fails exactly when the
target chunk is full and the pool is exhausted; on failure the buffer is
returned unchanged; and the live content never exceeds the pool capacity of
`BUFCHUNK_COUNT * BUFCHUNK_SIZE` bytes. -/
theorem pool_exhaustion_claim (s : Bufclient) (c : Nat) (h : Reachable s) :
    ((bufclient_insert_char s c).1 = RES.err ↔
      (chunkAt s (insertTarget s).1).length = BUFCHUNK_SIZE ∧ s.poolFree = 0) ∧
    ((bufclient_insert_char s c).1 = RES.err → (bufclient_insert_char s c).2 = s) ∧
    s.size ≤ BUFCHUNK_COUNT * BUFCHUNK_SIZE := by
  have hwf := reachable_WF s h
  obtain ⟨⟨hne, hcap, -, hsz, -, hpool⟩, -⟩ := reachable_WF s h
  refine ⟨⟨?_, ?_⟩, ?_, ?_⟩
  · intro herr
    rcases insert_spec s c hwf with ⟨hf, hp, -⟩ |
      ⟨s2, hok2, -, -, -, -, -, -, -, -, -, -⟩
    · exact ⟨hf, hp⟩
    · rw [hok2] at herr
      simp at herr
  · rintro ⟨hf, hp⟩
    rcases insert_spec s c hwf with ⟨-, -, he⟩ |
      ⟨s2, hok2, -, -, -, -, -, -, -, -, -, hnc⟩
    · rw [he]
    · exact absurd ⟨hf, hp⟩ hnc
  · intro herr
    rcases insert_spec s c hwf with ⟨-, -, he⟩ |
      ⟨s2, hok2, -, -, -, -, -, -, -, -, -, -⟩
    · rw [he]
    · rw [hok2] at herr
      simp at herr
  · have hlen : s.chunks.length ≤ BUFCHUNK_COUNT := by omega
    have hcapsum := totalLen_le_of_cap s.chunks BUFCHUNK_SIZE hcap
    calc s.size = totalLen s.chunks := hsz
    _ ≤ s.chunks.length * BUFCHUNK_SIZE := hcapsum
    _ ≤ BUFCHUNK_COUNT * BUFCHUNK_SIZE := Nat.mul_le_mul_right _ hlen

theorem pool_exhaustion_claim_witness :
    initBuf.size ≤ BUFCHUNK_COUNT * BUFCHUNK_SIZE :=
  (pool_exhaustion_claim initBuf 97 Reachable.init).2.2

/-! ## Claim C8: the cursor-coordinate update of insert is naive -/

/-- C8 counterexample.  Inserting a tab at the start of the empty buffer
stores visual column 1 for the new cursor position, but the full
visual-column recomputation at that position yields 8: the stored
coordinates after an insert are not always correct, because `insert_char`
adds 1 for every non-newline byte (the recompute call at src line 612 is
commented out). -/
theorem insert_tab_column_counterexample :
    (bufclient_insert_char initBuf 9).2.cursorX = 1 ∧
    calculate_visual_x (bufclient_insert_char initBuf 9).2 0
      (bufclient_insert_char initBuf 9).2.cursorAbs = 8 := by decide

/-- C8 amended.  After a successful insert from a reachable state, the
coordinate update is the naive one actually implemented: a newline
increments the line and resets the column to 0, and any other byte
(including tabs and control bytes) adds exactly 1 to the stored visual
column; the goal column is set to the new stored column. -/
theorem insert_coord_update_amended (s : Bufclient) (c : Nat) (s' : Bufclient)
    (h : Reachable s) (hok : bufclient_insert_char s c = (RES.ok, s')) :
    s'.cursorY = (if c = 10 then s.cursorY + 1 else s.cursorY) ∧
    s'.cursorX = (if c = 10 then 0 else s.cursorX + 1) ∧
    s'.goalX = s'.cursorX ∧ s'.cursorAbs = s.cursorAbs + 1 := by
  have hwf := reachable_WF s h
  rcases insert_spec s c hwf with ⟨-, -, herr⟩ |
    ⟨s2, hok2, -, -, -, habs, hy, hx, hg, -, -, -⟩
  · rw [herr] at hok
    exact absurd (congrArg Prod.fst hok) (by simp)
  · rw [hok2] at hok
    have hs2 : s2 = s' := congrArg Prod.snd hok
    subst hs2
    exact ⟨hy, hx, hg, habs⟩

theorem insert_coord_update_amended_witness :
    W4.cursorY = (if 97 = 10 then initBuf.cursorY + 1 else initBuf.cursorY) ∧
    W4.cursorX = (if 97 = 10 then 0 else initBuf.cursorX + 1) ∧
    W4.goalX = W4.cursorX ∧ W4.cursorAbs = initBuf.cursorAbs + 1 :=
  insert_coord_update_amended initBuf 97 W4 Reachable.init (by decide)

/-! ## Claim C10: what a failed insert leaves behind -/

/-- C10.  When `insert_char` fails on a full target chunk with an empty
pool, every field of the buffer is returned unchanged except the `rowoff`
cache, which has already been invalidated exactly when the cursor offset is
strictly before the cached line start (the invalidation at src lines 531-534
runs before the allocation attempt at 548-554). -/
theorem insert_err_frame_claim (s : Bufclient) (c : Nat) (ch : Chunk)
    (hch : s.chunks[(insertTarget s).1]? = some ch)
    (hfull : ch.length = BUFCHUNK_SIZE) (hpool : s.poolFree = 0) :
    bufclient_insert_char s c =
      (RES.err, if s.rowoffChunk.isSome ∧ s.cursorAbs < s.rowoffAbs
                then { s with rowoffChunk := none } else s) := by
  unfold bufclient_insert_char
  dsimp only
  rw [hch]
  dsimp only
  by_cases hcc : s.rowoffChunk.isSome = true ∧ s.cursorAbs < s.rowoffAbs
  · rw [if_pos hcc, if_neg (by omega)]
    dsimp only
    rw [if_pos hpool]
  · rw [if_neg hcc, if_neg (by omega)]
    rw [if_pos hpool]

/-- A full single-chunk buffer with no free pool chunks and a `rowoff`
cache strictly after the cursor. -/
def W10 : Bufclient := {
  chunks := [List.replicate BUFCHUNK_SIZE 97], cursorIdx := 0, cursorRel := 0,
  cursorAbs := 0, cursorY := 0, cursorX := 0, goalX := 0, size := BUFCHUNK_SIZE,
  dirty := false, rowoff := 0, rowoffChunk := some 0, rowoffRel := 0,
  rowoffAbs := 5, poolFree := 0 }

theorem insert_err_frame_claim_witness :
    bufclient_insert_char W10 97 =
      (RES.err, if W10.rowoffChunk.isSome ∧ W10.cursorAbs < W10.rowoffAbs
                then { W10 with rowoffChunk := none } else W10) :=
  insert_err_frame_claim W10 97 (List.replicate BUFCHUNK_SIZE 97)
    (by decide) (by decide) rfl

/-! ## Claim C9: vertical moves preserve the goal column -/

theorem ucc_snd_goalX (b : Bufclient) :
    (bufclient_update_cursor_coords b).2.goalX = b.goalX := by
  unfold bufclient_update_cursor_coords
  split
  · rfl
  · dsimp only
    split
    · rfl
    · rfl

theorem ucc_snd_rowoffChunk (b : Bufclient) :
    (bufclient_update_cursor_coords b).2.rowoffChunk = b.rowoffChunk := by
  unfold bufclient_update_cursor_coords
  split
  · rfl
  · dsimp only
    split
    · rfl
    · rfl

theorem moveRelFinish_goalX (s : Bufclient) (t : Nat) (eff : Option (Nat × Nat)) :
    (moveRelFinish s t eff false).goalX = s.goalX := by
  unfold moveRelFinish
  split
  · rfl
  · dsimp only
    cases eff with
    | some p =>
      obtain ⟨i, r⟩ := p
      dsimp only
      rw [if_neg (by simp)]
      exact ucc_snd_goalX _
    | none =>
      rcases hfp : bufclient_find_pos { s with cursorAbs := t } ((t : Nat) : Int)
        with - | ⟨i, r⟩
      · dsimp only
        split
        · rfl
        · rfl
      · dsimp only
        rw [if_neg (by simp)]
        exact ucc_snd_goalX _

/-- A one-chunk buffer holding the lines \"abcdef\", \"xy\", \"123456\" with
the cursor at visual column 5 of line 0 and goal column 5. -/
def c9State : Bufclient := {
  chunks := [[97, 98, 99, 100, 101, 102, 10, 120, 121, 10, 49, 50, 51, 52, 53, 54]],
  cursorIdx := 0, cursorRel := 5, cursorAbs := 5, cursorY := 0, cursorX := 5,
  goalX := 5, size := 16, dirty := false, rowoff := 0, rowoffChunk := some 0,
  rowoffRel := 0, rowoffAbs := 0, poolFree := BUFCHUNK_COUNT - 1 }

/-- C9.  `move_cursor_relative` with Up or Down never writes the goal
column, on any buffer state whatsoever; and in the spec's scenario (lines
\"abcdef\", \"xy\", \"123456\", cursor at visual column 5 of line 0) moving
down twice and up twice returns the cursor to visual column 5 of line 0
with the goal column still 5. -/
theorem vertical_goalX_claim :
    (∀ s : Bufclient, (bufclient_move_cursor_relative s Key.up).goalX = s.goalX ∧
        (bufclient_move_cursor_relative s Key.down).goalX = s.goalX) ∧
    (bufclient_move_cursor_relative (bufclient_move_cursor_relative
        (bufclient_move_cursor_relative (bufclient_move_cursor_relative c9State
          Key.down) Key.down) Key.up) Key.up).cursorY = 0 ∧
    (bufclient_move_cursor_relative (bufclient_move_cursor_relative
        (bufclient_move_cursor_relative (bufclient_move_cursor_relative c9State
          Key.down) Key.down) Key.up) Key.up).cursorX = 5 ∧
    (bufclient_move_cursor_relative (bufclient_move_cursor_relative
        (bufclient_move_cursor_relative (bufclient_move_cursor_relative c9State
          Key.down) Key.down) Key.up) Key.up).cursorAbs = 5 ∧
    (bufclient_move_cursor_relative (bufclient_move_cursor_relative
        (bufclient_move_cursor_relative (bufclient_move_cursor_relative c9State
          Key.down) Key.down) Key.up) Key.up).goalX = 5 := by
  refine ⟨?_, by decide, by decide, by decide, by decide⟩
  intro s
  constructor
  · show (bufclient_move_cursor_relative s Key.up).goalX = s.goalX
    unfold bufclient_move_cursor_relative
    dsimp only
    split
    · rfl
    · split
      · exact moveRelFinish_goalX _ _ _
      · rfl
  · show (bufclient_move_cursor_relative s Key.down).goalX = s.goalX
    unfold bufclient_move_cursor_relative
    dsimp only
    split
    · split
      · exact moveRelFinish_goalX _ _ _
      · exact moveRelFinish_goalX _ _ _
    · rfl

/-! ## Claim C6: cache invalidation is strictly-before, not at-or-before -/

theorem deleteMerge_rowoff_none (b : Bufclient) (m : Nat) (h : b.rowoffChunk = none) :
    (deleteMerge b m).rowoffChunk = none := by
  unfold deleteMerge
  split
  · split
    · dsimp only
      split
      · split
        · rfl
        · dsimp only
          rw [h]
          rfl
      · split
        · rfl
        · dsimp only
          rw [h]
          rfl
    · exact h
  · exact h

theorem deleteCleanup_rowoff_none (b : Bufclient) (d : Nat) (h : b.rowoffChunk = none) :
    (deleteCleanup b d).rowoffChunk = none := by
  unfold deleteCleanup
  dsimp only
  split
  · apply deleteMerge_rowoff_none
    show adjustPtr b.rowoffChunk d = none
    rw [h]
    rfl
  · exact deleteMerge_rowoff_none b d h

/-- C6 counterexample.  In the initial buffer the `rowoff` cache is present
with cached absolute index 0 and the cursor is at offset 0, so an insert
edits exactly at the cached position; the claim requires the cache to be
invalidated, but the code's strictly-before test (src lines 532 and 638)
leaves it in place. -/
theorem cache_invalidation_counterexample :
    initBuf.rowoffChunk.isSome = true ∧
    initBuf.cursorAbs = initBuf.rowoffAbs ∧
    (bufclient_insert_char initBuf 97).1 = RES.ok ∧
    (bufclient_insert_char initBuf 97).2.rowoffChunk = some 0 := by decide

/-- C6 amended.  An insertion or deletion whose edit position is strictly
before the cached absolute index does invalidate the cache (set it to
empty); at-or-after edits leave it alone, as the counterexample shows. -/
theorem cache_invalidation_amended :
    (∀ (s : Bufclient) (c : Nat) (ch : Chunk),
      s.chunks[(insertTarget s).1]? = some ch →
      s.rowoffChunk.isSome = true → s.cursorAbs < s.rowoffAbs →
      (bufclient_insert_char s c).2.rowoffChunk = none) ∧
    (∀ (s : Bufclient) (i r : Nat),
      s.cursorAbs ≠ 0 →
      bufclient_find_pos s ((s.cursorAbs - 1 : Nat) : Int) = some (i, r) →
      s.rowoffChunk.isSome = true → s.cursorAbs - 1 < s.rowoffAbs →
      (bufclient_delete_char s).2.rowoffChunk = none) := by
  constructor
  · intro s c ch hch hsome hlt
    unfold bufclient_insert_char
    dsimp only
    rw [hch]
    dsimp only
    have hcond : s.rowoffChunk.isSome = true ∧ s.cursorAbs < s.rowoffAbs := ⟨hsome, hlt⟩
    rw [if_pos hcond]
    split
    · dsimp only
      rw [finishInsert_rowoffChunk]
    · split
      · rfl
      · split
        · dsimp only
          rw [finishInsert_rowoffChunk]
        · dsimp only
          rw [finishInsert_rowoffChunk]
  · intro s i r h0 hfp hsome hlt
    unfold bufclient_delete_char
    rw [if_neg h0]
    dsimp only
    rw [hfp]
    dsimp only
    have hcond : s.rowoffChunk.isSome = true ∧ s.cursorAbs - 1 < s.rowoffAbs := ⟨hsome, hlt⟩
    rw [if_pos hcond]
    dsimp only
    apply deleteCleanup_rowoff_none
    rw [ucc_snd_rowoffChunk]

/-! ## Claim C3: the compaction invariant fails -/

/-- The buffer after `n` end-of-buffer insertions of the byte 97 into the
initial buffer (`n ≤ BUFCHUNK_SIZE`, so a single chunk holds them all). -/
def endState (n : Nat) : Bufclient :=
  { chunks := [List.replicate n 97], cursorIdx := 0, cursorRel := n, cursorAbs := n,
    cursorY := 0, cursorX := n, goalX := n, size := n, dirty := decide (0 < n),
    rowoff := 0, rowoffChunk := some 0, rowoffRel := 0, rowoffAbs := 0,
    poolFree := BUFCHUNK_COUNT - 1 }

theorem endState_zero : initBuf = endState 0 := by decide

/-- One end-of-buffer insertion of 97 advances `endState n` to
`endState (n + 1)` while the single chunk has room. -/
theorem endState_step (n : Nat) (h : n < BUFCHUNK_SIZE) :
    applyOp (endState n) (Op.ins 97) = endState (n + 1) := by
  show (bufclient_insert_char (endState n) 97).2 = endState (n + 1)
  have hch : (endState n).chunks[(endState n).cursorIdx]? =
      some (List.replicate n 97) := List.getElem?_cons_zero
  have htarget : insertTarget (endState n) = (0, n) := by
    unfold insertTarget
    rw [hch]
    dsimp only
    have hcnd : ¬((endState n).cursorRel = (List.replicate n 97).length ∧
        (endState n).cursorIdx + 1 < (endState n).chunks.length) := by
      rintro ⟨-, h2⟩
      have h3 : (0 : Nat) + 1 < 1 := h2
      omega
    rw [if_neg hcnd]
    rfl
  have hlin : linsert (List.replicate n 97) n 97 = List.replicate (n + 1) 97 := by
    unfold linsert
    rw [List.take_of_length_le (by simp), List.drop_eq_nil_of_le (by simp),
      ← List.replicate_succ']
  unfold bufclient_insert_char
  dsimp only
  rw [htarget]
  dsimp only
  have hch0 : (endState n).chunks[0]? = some (List.replicate n 97) :=
    List.getElem?_cons_zero
  rw [hch0]
  dsimp only
  have hnocache : ¬((endState n).rowoffChunk.isSome = true ∧
      (endState n).cursorAbs < (endState n).rowoffAbs) := by
    rintro ⟨-, h2⟩
    exact Nat.not_lt_zero _ h2
  rw [if_neg hnocache]
  have hsize : (List.replicate n 97).length < BUFCHUNK_SIZE := by simpa using h
  rw [if_pos hsize]
  dsimp only
  rw [hlin]
  have hset : (endState n).chunks.set 0 (List.replicate (n + 1) 97) =
      [List.replicate (n + 1) 97] := rfl
  rw [hset]
  unfold finishInsert
  dsimp only
  rw [if_neg (by omega : ¬(97 : Nat) = 10)]
  show _ = endState (n + 1)
  unfold endState
  dsimp only
  have hd : decide (0 < n + 1) = true := by simp
  rw [hd]

/-- `n` end-of-buffer insertions of 97 from the initial buffer give
`endState n`, for `n` up to one chunk's capacity. -/
theorem stA_eq : ∀ n : Nat, n ≤ BUFCHUNK_SIZE →
    List.foldl applyOp initBuf (List.replicate n (Op.ins 97)) = endState n := by
  intro n
  induction n with
  | zero =>
    intro _
    exact endState_zero
  | succ n ih =>
    intro hle
    have e : List.replicate (n + 1) (Op.ins 97) =
        List.replicate n (Op.ins 97) ++ [Op.ins 97] := by
      rw [← List.replicate_succ']
    rw [e, List.foldl_append, ih (by omega)]
    simp only [List.foldl_cons, List.foldl_nil]
    exact endState_step n (by omega)

theorem stA512 : List.foldl applyOp initBuf (List.replicate 512 (Op.ins 97)) =
    endState 512 := stA_eq 512 (by decide)

/-- The operation sequence exhibiting the broken compaction invariant: fill
one chunk, split it by an interior insert, move to the end and delete one
byte. -/
def cexOps : List Op :=
  List.replicate 512 (Op.ins 97) ++ [Op.moveTo 1, Op.ins 98, Op.moveTo 513, Op.del]

/-- The state reached by `cexOps`: chunk sizes [2, 510], which sum to
`BUFCHUNK_SIZE`. -/
def stE : Bufclient :=
  { chunks := [[97, 98], List.replicate 510 97], cursorIdx := 1, cursorRel := 510,
    cursorAbs := 512, cursorY := 0, cursorX := 512, goalX := 512, size := 512,
    dirty := true, rowoff := 0, rowoffChunk := some 0, rowoffRel := 0, rowoffAbs := 0,
    poolFree := BUFCHUNK_COUNT - 2 }

theorem stepB : applyOp (endState 512) (Op.moveTo 1) =
    { endState 512 with cursorRel := 1, cursorAbs := 1, cursorX := 1, goalX := 1 } := by decide

theorem stepC : applyOp { endState 512 with cursorRel := 1, cursorAbs := 1, cursorX := 1, goalX := 1 } (Op.ins 98) = { stE with chunks := [[97, 98], List.replicate 511 97], cursorIdx := 0, cursorRel := 2, cursorAbs := 2, cursorX := 2, goalX := 2, size := 513 } := by decide

theorem stepD : applyOp { stE with chunks := [[97, 98], List.replicate 511 97], cursorIdx := 0, cursorRel := 2, cursorAbs := 2, cursorX := 2, goalX := 2, size := 513 } (Op.moveTo 513) = { stE with chunks := [[97, 98], List.replicate 511 97], cursorRel := 511, cursorAbs := 513, cursorX := 513, goalX := 513, size := 513 } := by decide

theorem stepE : applyOp { stE with chunks := [[97, 98], List.replicate 511 97], cursorRel := 511, cursorAbs := 513, cursorX := 513, goalX := 513, size := 513 } Op.del = stE := by decide

theorem foldl_reachable (l : List Op) : ∀ s : Bufclient, Reachable s →
    Reachable (List.foldl applyOp s l) := by
  induction l with
  | nil => intro s hs; exact hs
  | cons a rest ih =>
    intro s hs
    exact ih (applyOp s a) (Reachable.step s a hs)

theorem runOps_cex : runOps cexOps = stE := by
  unfold runOps cexOps
  rw [List.foldl_append, stA512]
  simp only [List.foldl_cons, List.foldl_nil]
  rw [stepB, stepC, stepD, stepE]

/-- C3 counterexample.  The state `stE` is reachable from the initial
buffer (fill one chunk with 512 bytes, insert at offset 1 to split it,
move to the end, delete one byte), its delete completed, yet its two
adjacent chunks hold 2 and 510 bytes: 2 + 510 ≤ BUFCHUNK_SIZE, violating
the claimed compaction invariant — delete only merges at the cursor chunk,
and this pair is away from the cursor. -/
theorem compaction_counterexample : Reachable stE ∧ ¬ Compacted stE := by
  constructor
  · rw [← runOps_cex]
    exact foldl_reachable cexOps initBuf Reachable.init
  · decide

/-- C3 amended.  The compaction the code actually guarantees is local to
the deletion point: the merge pass of `delete_char` coalesces the (possibly
shifted) cursor chunk with its immediate successor exactly when their used
sizes fit in one chunk, returning the freed chunk to the pool; adjacent
fitting pairs elsewhere in the list are left alone (see the
counterexample). -/
theorem compaction_local_amended (b : Bufclient) (m : Nat) (x y : Chunk)
    (hx : b.chunks[m]? = some x) (hy : b.chunks[m + 1]? = some y)
    (hfit : x.length + y.length ≤ BUFCHUNK_SIZE) :
    (deleteMerge b m).chunks = lerase (b.chunks.set m (x ++ y)) (m + 1) ∧
    (deleteMerge b m).poolFree = b.poolFree + 1 := by
  unfold deleteMerge
  rw [hx, hy]
  dsimp only
  rw [if_pos hfit]
  constructor
  · split
    · split
      · rfl
      · rfl
    · split
      · rfl
      · rfl
  · split
    · split
      · rfl
      · rfl
    · split
      · rfl
      · rfl

/-- A three-chunk buffer whose first two chunks fit in one. -/
def W3 : Bufclient := {
  chunks := [[1], [2], [3]], cursorIdx := 0, cursorRel := 0, cursorAbs := 0,
  cursorY := 0, cursorX := 0, goalX := 0, size := 3, dirty := false,
  rowoff := 0, rowoffChunk := some 0, rowoffRel := 0, rowoffAbs := 0,
  poolFree := BUFCHUNK_COUNT - 3 }

theorem compaction_local_amended_witness :
    (deleteMerge W3 0).chunks = lerase (W3.chunks.set 0 ([1] ++ [2])) 1 ∧
    (deleteMerge W3 0).poolFree = W3.poolFree + 1 :=
  compaction_local_amended W3 0 [1] [2] (by decide) (by decide) (by decide)

/-! ## Claim C7: visual widths -/

/-- A one-chunk buffer with content `l` and the cursor parked at the
start. -/
def mkLineBuf (l : Chunk) : Bufclient := {
  chunks := [l], cursorIdx := 0, cursorRel := 0, cursorAbs := 0,
  cursorY := 0, cursorX := 0, goalX := 0, size := l.length, dirty := false,
  rowoff := 0, rowoffChunk := some 0, rowoffRel := 0, rowoffAbs := 0,
  poolFree := BUFCHUNK_COUNT - 1 }

/-- C7 counterexample.  On a buffer holding the single control byte 0x01
with the cursor after it, `calculate_visual_x` gives the byte width 2, but
the cursor-coordinate recomputation gives it width 1 (its control branch
does `current_x++`, src line 339): the two computations the claim asserts
agree do not. -/
theorem control_width_counterexample :
    calculate_visual_x (mkLineBuf [1]) 0 1 = 2 ∧
    (bufclient_update_cursor_coords
      { mkLineBuf [1] with cursorAbs := 1 }).2.cursorX = 1 := by decide

/-- C7 amended.  `calculate_visual_x` implements the claimed widths: with
tab stop 8, in line content "a\\tb" the byte after the tab sits at visual
column 8 (and contributes width 1, putting the next position at 9); a
literal 0x01 — or any non-tab, non-newline byte below 0x20, or 0x7f —
contributes width 2; any other byte contributes width 1; and a tab always
advances the column to the next multiple of `TAB_STOP`.  The
cursor-coordinate recomputation, however, does not share these widths for
control bytes (see the counterexample). -/
theorem visual_width_amended :
    calculate_visual_x (mkLineBuf [97, 9, 98]) 0 2 = 8 ∧
    calculate_visual_x (mkLineBuf [97, 9, 98]) 0 3 = 9 ∧
    (∀ b : Nat, b < 32 → b ≠ 9 → b ≠ 10 →
      calculate_visual_x (mkLineBuf [b]) 0 1 = 2) ∧
    calculate_visual_x (mkLineBuf [127]) 0 1 = 2 ∧
    (∀ b : Nat, ¬(b < 32 ∨ b = 127) → b ≠ 9 → b ≠ 10 →
      calculate_visual_x (mkLineBuf [b]) 0 1 = 1) ∧
    (∀ x abs t : Nat, abs < t →
      (cvxInner t [9] abs x).2.2 = TAB_STOP * (x / TAB_STOP + 1)) := by
  refine ⟨by decide, by decide, ?_, by decide, ?_, ?_⟩
  · intro b hb32 hb9 hb10
    have hw : b < 32 ∨ b = 127 := Or.inl hb32
    simp [calculate_visual_x, bufclient_find_line_start, cvxInner, cvxOuter,
      mkLineBuf, hb9, hb10, hw]
  · intro b hw hb9 hb10
    simp [calculate_visual_x, bufclient_find_line_start, cvxInner, cvxOuter,
      mkLineBuf, hb9, hb10, hw]
  · intro x abs t h
    simp only [cvxInner, if_pos h]
    rw [if_true]
    rw [if_neg (by omega : ¬(9 : Nat) = 10)]
    show x + (TAB_STOP - x % TAB_STOP) = TAB_STOP * (x / TAB_STOP + 1)
    unfold TAB_STOP
    omega

end Lkjsxceditor
